import Mathlib

/-!
# ansiwrap: ANSI-escape-aware text wrapping

A shallow embedding of `ansiwrap.go`.

* A Go `string` / `[]byte` is a list of bytes, `List Nat` (each byte a value
  below 256; the functions below are defined on every list).
* A Go `int` is an `Int`, 64 bits wide as on the common platforms; a rune is
  a `Nat` code point.  Where a result can leave the 64-bit range (the squared
  slack in `cost`, `width*2` in `WrapIndent`) it is reduced by `wrap64`.  In
  `GreedyIndent` the sum `indent+count+rc` is bounded by the length of a line
  that is held in memory, and stays exact.
* A run-time panic (index out of range, negative `strings.Repeat` count) and a
  loop that exhausts its fuel are both the result `none`.
* The library functions the package calls (`utf8.DecodeRune`,
  `unicode.IsPrint`, `unicode.IsSpace`, `strings.Fields`, `strings.Repeat`,
  `strings.Join`) are embedded from the Go standard library.  The Unicode
  table behind `unicode.IsPrint` above Latin-1 is a parameter `pr`.
-/

namespace Ansiwrap

/-! ## Standard-library functions -/

/-- The rune `utf8.RuneError`, U+FFFD. -/
def RuneError : Nat := 0xFFFD

/-- The `first` table of package `utf8` together with `acceptRanges`, for a
non-ASCII lead byte: `some (size, lo, hi)` gives the length of the encoding
and the accepted range of the second byte; `none` is an invalid lead byte. -/
def utf8First (p0 : Nat) : Option (Nat × Nat × Nat) :=
  if 0xC2 ≤ p0 ∧ p0 ≤ 0xDF then some (2, 0x80, 0xBF)
  else if p0 = 0xE0 then some (3, 0xA0, 0xBF)
  else if p0 = 0xED then some (3, 0x80, 0x9F)
  else if 0xE1 ≤ p0 ∧ p0 ≤ 0xEF then some (3, 0x80, 0xBF)
  else if p0 = 0xF0 then some (4, 0x90, 0xBF)
  else if 0xF1 ≤ p0 ∧ p0 ≤ 0xF3 then some (4, 0x80, 0xBF)
  else if p0 = 0xF4 then some (4, 0x80, 0x8F)
  else none

/-- Is `b` a UTF-8 continuation byte (`locb <= b && b <= hicb`)? -/
def isCont (b : Nat) : Bool := decide (0x80 ≤ b ∧ b ≤ 0xBF)

/-- The function `utf8.DecodeRune`: the first rune of `p` and its width in
bytes.  An invalid or short encoding is `(RuneError, 1)`, the empty input
`(RuneError, 0)`.  Masks and shifts are written as `%` and `*`:
`p0 & 0x1F` is `p0 % 32`, `x << 6` is `x * 64`, and `|` joins disjoint bits. -/
def DecodeRune : List Nat → Nat × Nat
  | [] => (RuneError, 0)
  | p0 :: rest =>
    if p0 < 0x80 then (p0, 1)
    else match utf8First p0 with
      | none => (RuneError, 1)
      | some (sz, lo, hi) =>
        if rest.length + 1 < sz then (RuneError, 1)
        else match rest with
          | [] => (RuneError, 1)
          | b1 :: rest1 =>
            if b1 < lo ∨ hi < b1 then (RuneError, 1)
            else if sz ≤ 2 then ((p0 % 32) * 64 + b1 % 64, 2)
            else match rest1 with
              | [] => (RuneError, 1)
              | b2 :: rest2 =>
                if !isCont b2 then (RuneError, 1)
                else if sz ≤ 3 then
                  ((p0 % 16) * 4096 + (b1 % 64) * 64 + b2 % 64, 3)
                else match rest2 with
                  | [] => (RuneError, 1)
                  | b3 :: _ =>
                    if !isCont b3 then (RuneError, 1)
                    else ((p0 % 8) * 262144 + (b1 % 64) * 4096
                            + (b2 % 64) * 64 + b3 % 64, 4)

/-- The function `unicode.IsPrint`.  Up to `MaxLatin1` the answer is the `pp`
bit of the `properties` table: the runes 0x20..0x7E and 0xA1..0xFF except the
soft hyphen 0xAD.  Above Latin-1 it is membership in `unicode.PrintRanges`,
the parameter `pr`. -/
def IsPrint (pr : Nat → Bool) (r : Nat) : Bool :=
  if r ≤ 0xFF then
    decide ((0x20 ≤ r ∧ r ≤ 0x7E) ∨ (0xA1 ≤ r ∧ r ≠ 0xAD))
  else pr r

/-- The function `unicode.IsSpace`: the code points with the Unicode
White_Space property. -/
def IsSpace (r : Nat) : Bool :=
  if r ≤ 0xFF then
    decide ((0x09 ≤ r ∧ r ≤ 0x0D) ∨ r = 0x20 ∨ r = 0x85 ∨ r = 0xA0)
  else
    decide (r = 0x1680 ∨ (0x2000 ≤ r ∧ r ≤ 0x200A) ∨ r = 0x2028 ∨ r = 0x2029
      ∨ r = 0x202F ∨ r = 0x205F ∨ r = 0x3000)

/-- The scan of `strings.FieldsFunc(s, unicode.IsSpace)`: `cur` holds the
bytes of the field being read, in reverse; a white-space rune closes it.
`fuel` bounds the number of runes read. -/
def fieldsLoop : Nat → List Nat → List Nat → List (List Nat)
  | 0, _, cur => if cur = [] then [] else [cur.reverse]
  | _ + 1, [], cur => if cur = [] then [] else [cur.reverse]
  | fuel + 1, b :: bs, cur =>
    let d := DecodeRune (b :: bs)
    if IsSpace d.1 then
      (if cur = [] then [] else [cur.reverse])
        ++ fieldsLoop fuel ((b :: bs).drop d.2) []
    else
      fieldsLoop fuel ((b :: bs).drop d.2) (((b :: bs).take d.2).reverse ++ cur)

/-- The function `strings.Fields`: the maximal runs of runes that are not
white space, in order.  (The library counts the fields of an ASCII string in a
first pass and otherwise calls `FieldsFunc(s, unicode.IsSpace)`; both give
these runs.) -/
def Fields (s : List Nat) : List (List Nat) :=
  fieldsLoop s.length s []

/-- The function `strings.Repeat(" ", count)`; a negative count panics. -/
def RepeatSpace (count : Int) : Option (List Nat) :=
  if count < 0 then none else some (List.replicate count.toNat 0x20)

/-- The function `strings.Join(elems, sep)`. -/
def Join (elems : List (List Nat)) (sep : List Nat) : List Nat :=
  match elems with
  | [] => []
  | [e] => e
  | e :: es => e ++ sep ++ Join es sep

/-- The constant `math.MaxInt32`. -/
def MaxInt32 : Int := 2147483647

/-- The value a 64-bit `int` holds after an arithmetic result `x`: the
representative of `x` modulo `2^64` in `[-2^63, 2^63)`. -/
def wrap64 (x : Int) : Int :=
  (x + 9223372036854775808) % 18446744073709551616 - 9223372036854775808

/-! ## `RuneCount` -/

/-- The loop of `RuneCount`: `b` is the unread input, `inSequence` the escape
state and `l` the count so far; the result is the final `(inSequence, l)`.
Every iteration consumes at least one byte, so `fuel = len(b)` is enough. -/
def runeCountLoop (pr : Nat → Bool) : Nat → List Nat → Bool → Int → Bool × Int
  | 0, _, inSequence, l => (inSequence, l)
  | _ + 1, [], inSequence, l => (inSequence, l)
  | fuel + 1, b0 :: bs, inSequence, l =>
    if b0 = 0x1B then runeCountLoop pr fuel bs true l
    else
      let d := DecodeRune (b0 :: bs)
      let b := (b0 :: bs).drop d.2
      if inSequence then
        runeCountLoop pr fuel b (if d.1 = 0x6D then false else true) l
      else if !IsPrint pr d.1 then runeCountLoop pr fuel b false l
      else runeCountLoop pr fuel b false (l + 1)

/-- The function `RuneCount`: the number of printable runes of `str` outside
escape sequences. -/
def RuneCount (pr : Nat → Bool) (str : List Nat) : Int :=
  (runeCountLoop pr str.length str false 0).2

/-! ## `GreedyIndent` -/

/-- The inner loop of `GreedyIndent`: `words` is `words[i:]`, `count` the
width used on the line and `line` its text so far.  Returns the finished line
and the words left over. -/
def greedyLine (pr : Nat → Bool) (width indent : Int) :
    List (List Nat) → Int → List Nat → List Nat × List (List Nat)
  | [], _, line => (line, [])
  | w :: ws, count, line =>
    let rc := if count ≠ 0 then RuneCount pr w + 1 else RuneCount pr w
    let w1 := if count ≠ 0 then 0x20 :: w else w
    if indent + count + rc > width ∧ count ≠ 0 then (line, w :: ws)
    else greedyLine pr width indent ws (count + rc) (line ++ w1)

/-- The outer loop of `GreedyIndent`: `words` is `words[i:]` and `lines` the
lines emitted so far.  Every iteration places at least one word, so
`fuel = len(words)` is enough. -/
def greedyLoop (pr : Nat → Bool) (width firstIndent restIndent : Int) :
    Nat → List (List Nat) → List (List Nat) → Option (List (List Nat))
  | _, [], lines => some lines
  | 0, _ :: _, _ => none
  | fuel + 1, w :: ws, lines =>
    let indent := if lines.length = 0 then firstIndent else restIndent
    match RepeatSpace indent with
    | none => none
    | some line =>
      let res := greedyLine pr width indent (w :: ws) 0 line
      greedyLoop pr width firstIndent restIndent fuel res.2 (lines ++ [res.1])

/-- The lines `GreedyIndent` builds for a word sequence, before they are
joined. -/
def greedyLines (pr : Nat → Bool) (words : List (List Nat))
    (width firstIndent restIndent : Int) : Option (List (List Nat)) :=
  greedyLoop pr width firstIndent restIndent words.length words []

/-- The function `GreedyIndent`. -/
def GreedyIndent (pr : Nat → Bool) (str : List Nat)
    (width firstIndent restIndent : Int) : Option (List Nat) :=
  (greedyLines pr (Fields str) width firstIndent restIndent).map
    (fun lines => Join lines [0x0A])

/-- The function `Greedy`. -/
def Greedy (pr : Nat → Bool) (str : List Nat) (width : Int) : Option (List Nat) :=
  GreedyIndent pr str width 0 0

/-! ## `BalancedIndent` -/

/-- An indexing expression `xs[i]` on a slice of `int`; out of range panics. -/
def getI (xs : List Int) (i : Int) : Option Int :=
  if i < 0 then none else xs[i.toNat]?

/-- An assignment `xs[i] = v`; out of range panics. -/
def setI (xs : List Int) (i : Int) (v : Int) : Option (List Int) :=
  if i < 0 ∨ (xs.length : Int) ≤ i then none else some (xs.set i.toNat v)

/-- The parameters of one call of `BalancedIndent` that its closures capture
and never change. -/
structure Ctx where
  /-- The argument `width`. -/
  width : Int
  /-- The argument `firstIndent`. -/
  firstIndent : Int
  /-- The argument `restIndent`. -/
  restIndent : Int
  /-- The slice `offsets`. -/
  offsets : List Int

/-- The slices `minima` and `breaks`, which the search updates. -/
structure Tables where
  /-- The slice `minima`. -/
  minima : List Int
  /-- The slice `breaks`. -/
  breaks : List Int
deriving DecidableEq

/-- The initialisation loop of `BalancedIndent`: `offsets[i+1] = offsets[i] +
RuneCount(word)`, given `offsets[i]` as `acc`. -/
def initOffsets (pr : Nat → Bool) : List (List Nat) → Int → List Int
  | [], _ => []
  | w :: ws, acc => (acc + RuneCount pr w) :: initOffsets pr ws (acc + RuneCount pr w)

/-- The closure `cost` of `BalancedIndent`. -/
def cost (c : Ctx) (minima : List Int) (i j : Int) : Option Int :=
  let indent := if i = 0 then c.firstIndent else c.restIndent
  let adjWidth := wrap64 (c.width - indent)
  match getI c.offsets j, getI c.offsets i with
  | some oj, some oi =>
    let w := wrap64 (oj - oi + j - i - 1)
    if w > adjWidth then some (MaxInt32 - 1)
    else match getI minima i with
      | some mi => some (wrap64 (mi + (adjWidth - w) * (adjWidth - w)))
      | none => none
  | _, _ => none

/-- The loop `for i := i0; i < i1; i++` of `search` for one `j`; `k` is the
number of iterations left, `i1 - i`. -/
def searchInner (c : Ctx) (j : Int) : Nat → Int → Tables → Option Tables
  | 0, _, t => some t
  | k + 1, i, t =>
    match cost c t.minima i j, getI t.minima j with
    | some cst, some mj =>
      if cst ≤ mj then
        match setI t.minima j cst, setI t.breaks j i with
        | some m1, some b1 => searchInner c j k (i + 1) ⟨m1, b1⟩
        | _, _ => none
      else searchInner c j k (i + 1) t
    | _, _ => none

/-- The loop `for len(stack) > 0` of `search`; the head of the list is the top
of the stack. -/
def searchLoop (c : Ctx) : Nat → List (Int × Int × Int × Int) → Tables → Option Tables
  | _, [], t => some t
  | 0, _ :: _, _ => none
  | fuel + 1, (i0, j0, i1, j1) :: stack, t =>
    if j0 < j1 then
      let j := Int.tdiv (j0 + j1) 2
      match searchInner c j (i1 - i0).toNat i0 t with
      | none => none
      | some t1 =>
        match getI t1.breaks j with
        | none => none
        | some bj =>
          searchLoop c fuel ((i0, j0, bj + 1, j) :: (bj, j + 1, i1, j1) :: stack) t1
    else searchLoop c fuel stack t

/-- The closure `search` of `BalancedIndent`.  A call pops at most
`2 * (j1 - j0) + 1` stack entries. -/
def search (c : Ctx) (i0 j0 i1 j1 : Int) (t : Tables) : Option Tables :=
  searchLoop c (2 * (j1 - j0).toNat + 1) [(i0, j0, i1, j1)] t

/-- The loop `for j := 1 << i; j < r-1; j++` of `OuterLoop`: the first `j` with
`cost(j+offset, r-1+offset) <= x`, if any; `k` is the number of iterations
left. -/
def findRestart (c : Ctx) (minima : List Int) (offset r x : Int) :
    Nat → Int → Option (Option Int)
  | 0, _ => some none
  | k + 1, j =>
    match cost c minima (j + offset) (r - 1 + offset) with
    | none => none
    | some y => if y ≤ x then some (some j) else findRestart c minima offset r x k (j + 1)

/-- The loop `OuterLoop` of `BalancedIndent`.  The shifts `1 << i` and
`1 << (i+1)` are powers of two: `i` stays below the bit length of `n`. -/
def outerLoop (c : Ctx) : Nat → Int → Nat → Int → Tables → Option Tables
  | 0, _, _, _, _ => none
  | fuel + 1, n, i, offset, t =>
    let r := min n (2 ^ (i + 1))
    let edge := 2 ^ i + offset
    match search c offset edge edge (r + offset) t with
    | none => none
    | some t1 =>
      match getI t1.minima (r - 1 + offset) with
      | none => none
      | some x =>
        match findRestart c t1.minima offset r x (r - 1 - 2 ^ i).toNat (2 ^ i) with
        | none => none
        | some (some j) => outerLoop c fuel (n - j) 0 (offset + j) t1
        | some none => if r = n then some t1 else outerLoop c fuel n (i + 1) offset t1

/-- The expression `words[y:j]`; panics unless `0 <= y <= j <= len(words)`. -/
def sliceWords (words : List (List Nat)) (y j : Int) : Option (List (List Nat)) :=
  if y < 0 ∨ j < y ∨ (words.length : Int) < j then none
  else some ((words.drop y.toNat).take (j.toNat - y.toNat))

/-- The reconstruction loop `for j := count; j > 0; j = y`. -/
def rebuild (c : Ctx) (words : List (List Nat)) (breaks : List Int) :
    Nat → Int → List (List Nat) → Option (List (List Nat))
  | 0, j, lines => if j > 0 then none else some lines
  | fuel + 1, j, lines =>
    if j > 0 then
      match getI breaks j with
      | none => none
      | some y =>
        let indent := if y ≤ 0 then c.firstIndent else c.restIndent
        match RepeatSpace indent, sliceWords words y j with
        | some ind, some ws => rebuild c words breaks fuel y ((ind ++ Join ws [0x20]) :: lines)
        | _, _ => none
    else some lines

/-- The tables `minima` and `breaks` when `OuterLoop` has finished.  A round of
`OuterLoop` either restarts with a smaller `n` or raises `i`, so
`(count + 2)^2` rounds are enough. -/
def balancedTables (pr : Nat → Bool) (words : List (List Nat))
    (width firstIndent restIndent : Int) : Option Tables :=
  let count := words.length
  let c : Ctx := ⟨width, firstIndent, restIndent, 0 :: initOffsets pr words 0⟩
  outerLoop c ((count + 2) * (count + 2)) (count + 1) 0 0
    ⟨0 :: List.replicate count MaxInt32, List.replicate (count + 1) 0⟩

/-- The lines `BalancedIndent` builds for a word sequence, before they are
joined. -/
def balancedLines (pr : Nat → Bool) (words : List (List Nat))
    (width firstIndent restIndent : Int) : Option (List (List Nat)) :=
  match balancedTables pr words width firstIndent restIndent with
  | none => none
  | some t =>
    rebuild ⟨width, firstIndent, restIndent, 0 :: initOffsets pr words 0⟩ words t.breaks
      (words.length + 1) words.length []

/-- The function `BalancedIndent`. -/
def BalancedIndent (pr : Nat → Bool) (str : List Nat)
    (width firstIndent restIndent : Int) : Option (List Nat) :=
  (balancedLines pr (Fields str) width firstIndent restIndent).map
    (fun lines => Join lines [0x0A])

/-- The function `Balanced`. -/
def Balanced (pr : Nat → Bool) (str : List Nat) (width : Int) : Option (List Nat) :=
  BalancedIndent pr str width 0 0

/-! ## `WrapIndent` -/

/-- The function `WrapIndent`. -/
def WrapIndent (pr : Nat → Bool) (str : List Nat)
    (width firstIndent restIndent : Int) : Option (List Nat) :=
  if wrap64 (RuneCount pr str + firstIndent) < wrap64 (width * 2) then
    GreedyIndent pr str width firstIndent restIndent
  else BalancedIndent pr str width firstIndent restIndent

/-- The function `Wrap`. -/
def Wrap (pr : Nat → Bool) (str : List Nat) (width : Int) : Option (List Nat) :=
  WrapIndent pr str width 0 0

/-! ## Specification-side definitions for UTF-8 text -/

/-- A Unicode scalar value: a code point that is not a surrogate. -/
def ValidRune (r : Nat) : Prop := r < 0xD800 ∨ (0xE000 ≤ r ∧ r ≤ 0x10FFFF)

/-- The UTF-8 encoding of one scalar value (`utf8.AppendRune`). -/
def EncodeRune (r : Nat) : List Nat :=
  if r < 0x80 then [r]
  else if r < 0x800 then [0xC0 + r / 64, 0x80 + r % 64]
  else if r < 0x10000 then [0xE0 + r / 4096, 0x80 + r / 64 % 64, 0x80 + r % 64]
  else [0xF0 + r / 262144, 0x80 + r / 4096 % 64, 0x80 + r / 64 % 64, 0x80 + r % 64]

/-- The UTF-8 encoding of a sequence of code points. -/
def utf8Encode : List Nat → List Nat
  | [] => []
  | r :: rs => EncodeRune r ++ utf8Encode rs

/-- One iteration of the loop of `RuneCount`, seen on a whole rune `r`. -/
def scanRune (pr : Nat → Bool) (st : Bool × Int) (r : Nat) : Bool × Int :=
  if r = 0x1B then (true, st.2)
  else if st.1 then (if r = 0x6D then false else true, st.2)
  else if !IsPrint pr r then (false, st.2)
  else (false, st.2 + 1)

/-! ## Specification-side definitions for wrapped lines -/

/-- The visible width of a line holding the words `chunk`: the sum of the
words' `RuneCount`s plus one for every separating space. -/
def lineWidth (pr : Nat → Bool) (chunk : List (List Nat)) : Int :=
  (chunk.map (RuneCount pr)).sum + ((chunk.length : Int) - 1)

/-- A line of a competing split is admissible: it holds at most one word, or
its indent plus its width is within `width`. -/
def FitsLine (pr : Nat → Bool) (width indent : Int) (chunk : List (List Nat)) : Prop :=
  chunk.length ≤ 1 ∨ indent + lineWidth pr chunk ≤ width

/-- Every line of a split is admissible, the first under `firstIndent` and
the others under `restIndent`. -/
def FitsSplit (pr : Nat → Bool) (width firstIndent restIndent : Int) :
    List (List (List Nat)) → Prop
  | [] => True
  | c :: cs => FitsLine pr width firstIndent c ∧ ∀ c1 ∈ cs, FitsLine pr width restIndent c1

/-- The text of a line as the claims describe it: `indent` spaces, then the
words joined by single spaces. -/
def renderLine (indent : Int) (chunk : List (List Nat)) : List Nat :=
  List.replicate indent.toNat 0x20 ++ Join chunk [0x20]

/-- The lines of a split as the claims describe them: the first chunk under
`firstIndent`, every later chunk under `restIndent`. -/
def renderSplit (firstIndent restIndent : Int) : List (List (List Nat)) → List (List Nat)
  | [] => []
  | c :: cs => renderLine firstIndent c :: cs.map (renderLine restIndent)

/-- The output `out` is the rendering of some split of `words` into
consecutive non-empty chunks, joined by newlines. -/
def IsRenderedSplit (words : List (List Nat)) (firstIndent restIndent : Int)
    (out : Option (List Nat)) : Prop :=
  ∃ chunks : List (List (List Nat)), (∀ ch ∈ chunks, ch ≠ [])
    ∧ chunks.flatten = words
    ∧ out = some (Join (renderSplit firstIndent restIndent chunks) [0x0A])

/-- The squared slack of a line holding `chunk` under `indent`. -/
def slackSq (pr : Nat → Bool) (width indent : Int) (chunk : List (List Nat)) : Int :=
  (width - indent - lineWidth pr chunk) * (width - indent - lineWidth pr chunk)

/-- The total raggedness of a split: the sum of the squared slack of its lines,
the first under `firstIndent` and the others under `restIndent`. -/
def raggedness (pr : Nat → Bool) (width firstIndent restIndent : Int) :
    List (List (List Nat)) → Int
  | [] => 0
  | c :: cs => slackSq pr width firstIndent c + (cs.map (slackSq pr width restIndent)).sum

/-! ## Invariants of `BalancedIndent` -/

/-- The invariant of the tables for `count` words while the search reads
candidates below `E`: both tables have `count + 1` entries, and every entry of
`breaks` is a non-negative index below `E` and, from index 1 on, below its own
index. -/
structure TablesOK (count : Nat) (E : Int) (t : Tables) : Prop where
  /-- The slice `minima` has `count + 1` entries. -/
  lenM : t.minima.length = count + 1
  /-- The slice `breaks` has `count + 1` entries. -/
  lenB : t.breaks.length = count + 1
  /-- Every entry of `breaks` is in range. -/
  brk : ∀ j y : Int, getI t.breaks j = some y → 0 ≤ y ∧ y < E ∧ (1 ≤ j → y < j)

/-- The invariant of a stack entry `(i0, j0, i1, j1)` of `search`: candidates
lie in `[0, E)` and targets in `[E, N)`. -/
def EntryOK (E N : Int) (e : Int × Int × Int × Int) : Prop :=
  0 ≤ e.1 ∧ e.1 ≤ E ∧ e.2.2.1 ≤ E ∧ E ≤ e.2.1 ∧ e.2.2.2 ≤ N

/-- The number of stack entries `search` still pops, at most. -/
def stackWork : List (Int × Int × Int × Int) → Nat
  | [] => 0
  | e :: es => 2 * (e.2.2.2 - e.2.1).toNat + 1 + stackWork es

/-- The number of rounds `OuterLoop` still makes, at most, from the state
`(n, i)` on `count` words: a restart lowers `n`, and otherwise `i` rises. -/
def outerWork (count : Nat) (n : Int) (i : Nat) : Nat :=
  n.toNat * (count + 2) + (count + 1 - i)

/-- The minimum of `cost(i, j)` over the candidates `i = 0, ..., k-1`, evaluated
against the table `minima`; `none` when there is no candidate or `cost`
panics. -/
def dpMinOver (c : Ctx) (minima : List Int) (j : Int) : Nat → Option Int
  | 0 => none
  | k + 1 =>
    match cost c minima k j with
    | none => none
    | some v =>
      if k = 0 then some v
      else match dpMinOver c minima j k with
        | none => none
        | some m => some (min m v)

/-- The direct all-pairs dynamic program, as the specification words it: the
table starts as `minima'[0] = 0` and, for `j = 1, ..., count` in order,
`minima'[j]` is the minimum over all `i < j` of `cost(i, j)` evaluated against
`minima'`.  The result is the table up to index `count`. -/
def dpTable (c : Ctx) : Nat → Option (List Int)
  | 0 => some [0]
  | j + 1 =>
    match dpTable c j with
    | none => none
    | some m =>
      match dpMinOver c m (j + 1 : Nat) (j + 1) with
      | none => none
      | some v => some (m ++ [v])

/-- The number of lines of an output text: none for the empty text, else one
more than the number of newline bytes. -/
def lineCount (out : List Nat) : Nat :=
  if out = [] then 0 else out.count 0x0A + 1

/-! # Theorems -/

/-! ## `DecodeRune` -/

theorem utf8First_some {p0 sz lo hi : Nat} (h : utf8First p0 = some (sz, lo, hi)) :
    2 ≤ sz ∧ sz ≤ 4 ∧ 0x80 ≤ lo ∧ hi ≤ 0xBF ∧ 0xC2 ≤ p0 ∧ p0 ≤ 0xF4
      ∧ (sz = 2 → p0 ≤ 0xDF) ∧ (sz = 3 → 0xE0 ≤ p0 ∧ p0 ≤ 0xEF ∧ (p0 = 0xE0 → lo = 0xA0))
      ∧ (sz = 4 → 0xF0 ≤ p0 ∧ (p0 = 0xF0 → lo = 0x90)) := by
  unfold utf8First at h
  split_ifs at h <;> simp only [Option.some.injEq, Prod.mk.injEq] at h <;> omega

theorem decodeRune_size_pos (b0 : Nat) (bs : List Nat) : 1 ≤ (DecodeRune (b0 :: bs)).2 := by
  simp only [DecodeRune]
  repeat' split
  all_goals simp


theorem isCont_of_range {b : Nat} (h1 : 0x80 ≤ b) (h2 : b ≤ 0xBF) : isCont b = true := by
  simp [isCont, h1, h2]

theorem decodeRune_ascii {b0 : Nat} (bs : List Nat) (h : b0 < 0x80) :
    DecodeRune (b0 :: bs) = (b0, 1) := by
  simp only [DecodeRune, h, if_true]

theorem decodeRune_encodeRune {r : Nat} (hr : ValidRune r) (rest : List Nat) :
    DecodeRune (EncodeRune r ++ rest) = (r, (EncodeRune r).length) := by
  unfold ValidRune at hr
  unfold EncodeRune
  split_ifs with h1 h2 h3
  · simp [DecodeRune, h1]
  · have e : utf8First (0xC0 + r / 64) = some (2, 0x80, 0xBF) := by
      unfold utf8First
      rw [if_pos (by omega)]
    simp only [List.cons_append, List.nil_append, DecodeRune, e, List.length_cons]
    rw [if_neg (by omega), if_neg (by omega), if_neg (by omega), if_pos (by omega)]
    simp only [List.length_nil, Prod.mk.injEq, and_true]
    omega
  · have hc : isCont (0x80 + r % 64) = true := isCont_of_range (by omega) (by omega)
    have fin : ∀ lo hi, utf8First (0xE0 + r / 4096) = some (3, lo, hi) →
        lo ≤ 0x80 + r / 64 % 64 → 0x80 + r / 64 % 64 ≤ hi →
        DecodeRune ([0xE0 + r / 4096, 0x80 + r / 64 % 64, 0x80 + r % 64] ++ rest)
          = (r, [0xE0 + r / 4096, 0x80 + r / 64 % 64, 0x80 + r % 64].length) := by
      intro lo hi e hlo hhi
      simp only [List.cons_append, List.nil_append, DecodeRune, e, List.length_cons, hc]
      rw [if_neg (by omega), if_neg (by omega), if_neg (by omega), if_neg (by omega)]
      simp only [Bool.not_true, Bool.false_eq_true, if_false, le_refl, if_true,
        List.length_nil, Prod.mk.injEq, and_true]
      omega
    by_cases c0 : r / 4096 = 0
    · exact fin 0xA0 0xBF (by unfold utf8First; rw [if_neg (by omega), if_pos (by omega)])
        (by omega) (by omega)
    · by_cases c13 : r / 4096 = 13
      · exact fin 0x80 0x9F (by
          unfold utf8First; rw [if_neg (by omega), if_neg (by omega), if_pos (by omega)])
          (by omega) (by omega)
      · exact fin 0x80 0xBF (by
          unfold utf8First
          rw [if_neg (by omega), if_neg (by omega), if_neg (by omega), if_pos (by omega)])
          (by omega) (by omega)
  · have hc2 : isCont (0x80 + r / 64 % 64) = true := isCont_of_range (by omega) (by omega)
    have hc3 : isCont (0x80 + r % 64) = true := isCont_of_range (by omega) (by omega)
    have fin : ∀ lo hi, utf8First (0xF0 + r / 262144) = some (4, lo, hi) →
        lo ≤ 0x80 + r / 4096 % 64 → 0x80 + r / 4096 % 64 ≤ hi →
        DecodeRune ([0xF0 + r / 262144, 0x80 + r / 4096 % 64, 0x80 + r / 64 % 64,
            0x80 + r % 64] ++ rest)
          = (r, [0xF0 + r / 262144, 0x80 + r / 4096 % 64, 0x80 + r / 64 % 64,
              0x80 + r % 64].length) := by
      intro lo hi e hlo hhi
      simp only [List.cons_append, List.nil_append, DecodeRune, e, List.length_cons, hc2, hc3]
      rw [if_neg (by omega), if_neg (by omega), if_neg (by omega), if_neg (by omega)]
      simp only [Bool.not_true, Bool.false_eq_true, if_false, List.length_nil,
        Prod.mk.injEq, and_true]
      rw [if_neg (by omega)]
      simp only [Prod.mk.injEq, and_true]
      omega
    by_cases c0 : r / 262144 = 0
    · exact fin 0x90 0xBF (by
        unfold utf8First
        rw [if_neg (by omega), if_neg (by omega), if_neg (by omega), if_neg (by omega),
          if_pos (by omega)])
        (by omega) (by omega)
    · by_cases c4 : r / 262144 = 4
      · exact fin 0x80 0x8F (by
          unfold utf8First
          rw [if_neg (by omega), if_neg (by omega), if_neg (by omega), if_neg (by omega),
            if_neg (by omega), if_neg (by omega), if_pos (by omega)])
          (by omega) (by omega)
      · exact fin 0x80 0xBF (by
          unfold utf8First
          rw [if_neg (by omega), if_neg (by omega), if_neg (by omega), if_neg (by omega),
            if_neg (by omega), if_pos (by omega)])
          (by omega) (by omega)


theorem decodeRune_rune_ne_ascii (c b0 : Nat) (bs : List Nat) (hc : c < 0x80)
    (h : b0 ≠ c) : (DecodeRune (b0 :: bs)).1 ≠ c := by
  simp only [DecodeRune]
  repeat' split
  all_goals (try (have hf := utf8First_some ‹utf8First _ = some _›))
  all_goals simp only [RuneError, ne_eq]
  all_goals omega

theorem decodeRune_stop (b0 c : Nat) (bs y : List Nat) (hc : c < 0x80) :
    (DecodeRune (b0 :: bs ++ c :: y)).2 ≤ bs.length + 1 := by
  rcases bs with _ | ⟨b1, _ | ⟨b2, _ | ⟨b3, bs⟩⟩⟩
  all_goals simp only [List.cons_append, List.nil_append, DecodeRune]
  all_goals repeat' split
  all_goals (try (have hf := utf8First_some ‹utf8First _ = some _›))
  all_goals simp only [RuneError, isCont, List.length_cons, List.length_nil] at *
  all_goals (try simp at *)
  all_goals omega


/-! ## The loop of `RuneCount` -/

theorem scanRune_fst_snd (pr : Nat → Bool) (s : Bool) (l : Int) (r : Nat) :
    scanRune pr (s, l) r =
      if r = 0x1B then (true, l)
      else if s then (if r = 0x6D then false else true, l)
      else if !IsPrint pr r then (false, l)
      else (false, l + 1) := rfl

theorem runeCountLoop_succ (pr : Nat → Bool) (fuel b0 : Nat) (bs : List Nat) (s : Bool)
    (l : Int) :
    runeCountLoop pr (fuel + 1) (b0 :: bs) s l =
      runeCountLoop pr fuel ((b0 :: bs).drop (DecodeRune (b0 :: bs)).2)
        (scanRune pr (s, l) (DecodeRune (b0 :: bs)).1).1
        (scanRune pr (s, l) (DecodeRune (b0 :: bs)).1).2 := by
  by_cases h : b0 = 0x1B
  · subst h
    simp [runeCountLoop, decodeRune_ascii, scanRune]
  · have hne : (DecodeRune (b0 :: bs)).1 ≠ 0x1B :=
      decodeRune_rune_ne_ascii 0x1B b0 bs (by omega) h
    simp only [runeCountLoop, scanRune_fst_snd, if_neg h, if_neg hne]
    split_ifs <;> rfl

theorem runeCountLoop_nil (pr : Nat → Bool) (fuel : Nat) (s : Bool) (l : Int) :
    runeCountLoop pr fuel [] s l = (s, l) := by
  cases fuel <;> rfl

theorem runeCountLoop_fuel_aux (pr : Nat → Bool) :
    ∀ (n fuel1 fuel2 : Nat) (b : List Nat) (s : Bool) (l : Int),
      b.length ≤ n → n ≤ fuel1 → n ≤ fuel2 →
      runeCountLoop pr fuel1 b s l = runeCountLoop pr fuel2 b s l := by
  intro n
  induction n with
  | zero =>
    intro fuel1 fuel2 b s l hb _ _
    have : b = [] := List.length_eq_zero.mp (by omega)
    subst this
    rw [runeCountLoop_nil, runeCountLoop_nil]
  | succ n ih =>
    intro fuel1 fuel2 b s l hb h1 h2
    cases b with
    | nil => rw [runeCountLoop_nil, runeCountLoop_nil]
    | cons b0 bs =>
      obtain ⟨f1, rfl⟩ : ∃ f1, fuel1 = f1 + 1 := ⟨fuel1 - 1, by omega⟩
      obtain ⟨f2, rfl⟩ : ∃ f2, fuel2 = f2 + 1 := ⟨fuel2 - 1, by omega⟩
      rw [runeCountLoop_succ, runeCountLoop_succ]
      have hpos := decodeRune_size_pos b0 bs
      apply ih
      · simp only [List.length_drop, List.length_cons] at hb ⊢
        omega
      · omega
      · omega

/-- Fuel beyond the length of the input does not change the loop. -/
theorem runeCountLoop_fuel (pr : Nat → Bool) (fuel : Nat) (b : List Nat) (s : Bool) (l : Int)
    (h : b.length ≤ fuel) :
    runeCountLoop pr fuel b s l = runeCountLoop pr b.length b s l :=
  runeCountLoop_fuel_aux pr b.length fuel b.length b s l (le_refl _) h (le_refl _)

theorem encodeRune_ne_nil (r : Nat) : EncodeRune r ≠ [] := by
  unfold EncodeRune
  split_ifs <;> simp

/-- Scanning a valid UTF-8 prefix is folding `scanRune` over its code points. -/
theorem runeCountLoop_encode_append (pr : Nat → Bool) :
    ∀ (rs : List Nat), (∀ r ∈ rs, ValidRune r) →
      ∀ (rest : List Nat) (s : Bool) (l : Int) (fuel : Nat),
        (utf8Encode rs ++ rest).length ≤ fuel →
        runeCountLoop pr fuel (utf8Encode rs ++ rest) s l =
          runeCountLoop pr rest.length rest (rs.foldl (scanRune pr) (s, l)).1
            (rs.foldl (scanRune pr) (s, l)).2 := by
  intro rs
  induction rs with
  | nil =>
    intro _ rest s l fuel hf
    simp only [utf8Encode, List.nil_append, List.foldl_nil] at hf ⊢
    exact runeCountLoop_fuel pr fuel rest s l hf
  | cons r rs ih =>
    intro hv rest s l fuel hf
    have hr : ValidRune r := hv r (List.mem_cons_self _ _)
    have hdec := decodeRune_encodeRune hr (utf8Encode rs ++ rest)
    obtain ⟨e0, es, he⟩ : ∃ e0 es, EncodeRune r = e0 :: es := by
      cases h : EncodeRune r with
      | nil => exact absurd h (encodeRune_ne_nil r)
      | cons e0 es => exact ⟨e0, es, rfl⟩
    simp only [utf8Encode, List.append_assoc, List.foldl_cons] at hf ⊢
    rw [he] at hdec hf ⊢
    simp only [List.cons_append, List.length_cons] at hdec hf ⊢
    obtain ⟨f, rfl⟩ : ∃ f, fuel = f + 1 := ⟨fuel - 1, by omega⟩
    rw [runeCountLoop_succ, hdec]
    have hdrop : List.drop (es.length + 1) (e0 :: (es ++ (utf8Encode rs ++ rest)))
        = utf8Encode rs ++ rest := by
      simp
    simp only [hdrop]
    have := ih (fun x hx => hv x (List.mem_cons_of_mem _ hx)) rest
      (scanRune pr (s, l) r).1 (scanRune pr (s, l) r).2 f (by
        simp only [List.length_append] at hf ⊢
        omega)
    simpa using this

/-! ## `RuneCount`: claims C8 and C9 -/

theorem mem_utf8Encode_of_mem {r : Nat} {rs : List Nat} (h : r ∈ rs) :
    ∀ b ∈ EncodeRune r, b ∈ utf8Encode rs := by
  induction rs with
  | nil => cases h
  | cons x xs ih =>
    intro b hb
    simp only [utf8Encode, List.mem_append]
    rcases List.mem_cons.mp h with rfl | h'
    · exact Or.inl hb
    · exact Or.inr (ih h' b hb)

theorem foldl_scanRune_no_escape (pr : Nat → Bool) :
    ∀ (rs : List Nat) (l : Int), (∀ r ∈ rs, r ≠ 0x1B) →
      rs.foldl (scanRune pr) (false, l) = (false, l + ((rs.filter (IsPrint pr)).length : Int)) := by
  intro rs
  induction rs with
  | nil => intro l _; simp
  | cons r rs ih =>
    intro l h
    have hr : r ≠ 0x1B := h r (List.mem_cons_self _ _)
    have ih' := fun l => ih l (fun x hx => h x (List.mem_cons_of_mem _ hx))
    simp only [List.foldl_cons, scanRune_fst_snd, if_neg hr]
    by_cases hp : IsPrint pr r = true
    · simp only [hp, Bool.not_true, Bool.false_eq_true, if_false, ih', List.filter_cons_of_pos hp,
        List.length_cons, Nat.cast_add, Nat.cast_one, Prod.mk.injEq, true_and]
      omega
    · simp only [Bool.not_eq_true] at hp
      simp [hp, ih']

theorem RuneCount_utf8Encode (pr : Nat → Bool) (rs : List Nat) (hv : ∀ r ∈ rs, ValidRune r) :
    RuneCount pr (utf8Encode rs) = (rs.foldl (scanRune pr) (false, 0)).2 := by
  unfold RuneCount
  have := runeCountLoop_encode_append pr rs hv [] false 0 (utf8Encode rs).length (by simp)
  simp only [List.append_nil, List.length_nil, runeCountLoop_nil] at this
  rw [this]

/-- C9. On a valid UTF-8 string without an ESC byte, `RuneCount` is the number
of code points that `unicode.IsPrint` accepts; so it never exceeds the number
of code points, and a single printable code point counts once, however many
bytes encode it. -/
theorem RuneCount_eq_printable_count (pr : Nat → Bool) (rs : List Nat)
    (hv : ∀ r ∈ rs, ValidRune r) (hesc : 0x1B ∉ utf8Encode rs) :
    RuneCount pr (utf8Encode rs) = ((rs.filter (IsPrint pr)).length : Int)
      ∧ RuneCount pr (utf8Encode rs) ≤ (rs.length : Int)
      ∧ (∀ r, rs = [r] → IsPrint pr r = true → RuneCount pr (utf8Encode rs) = 1) := by
  have hne : ∀ r ∈ rs, r ≠ 0x1B := by
    intro r hr heq
    subst heq
    exact hesc (mem_utf8Encode_of_mem hr 0x1B (by simp [EncodeRune]))
  have h1 : RuneCount pr (utf8Encode rs) = ((rs.filter (IsPrint pr)).length : Int) := by
    rw [RuneCount_utf8Encode pr rs hv, foldl_scanRune_no_escape pr rs 0 hne]
    simp
  refine ⟨h1, ?_, ?_⟩
  · rw [h1]
    exact_mod_cast List.length_filter_le _ _
  · intro r hr hp
    rw [h1, hr]
    simp [hp]

theorem RuneCount_eq_printable_count_witness :
    RuneCount (fun _ => true) (utf8Encode [110, 101, 97, 116, 0x2122])
        = ((([110, 101, 97, 116, 0x2122] : List Nat).filter (IsPrint (fun _ => true))).length : Int)
      ∧ RuneCount (fun _ => true) (utf8Encode [110, 101, 97, 116, 0x2122])
          ≤ ((([110, 101, 97, 116, 0x2122] : List Nat)).length : Int)
      ∧ (∀ r, [110, 101, 97, 116, 0x2122] = [r] → IsPrint (fun _ => true) r = true →
          RuneCount (fun _ => true) (utf8Encode [110, 101, 97, 116, 0x2122]) = 1) :=
  RuneCount_eq_printable_count (fun _ => true) [110, 101, 97, 116, 0x2122]
    (by intro r hr; simp at hr; unfold ValidRune; omega) (by decide)

/-- Inside an escape sequence every byte up to the next `m` is skipped. -/
theorem runeCountLoop_body (pr : Nat → Bool) :
    ∀ (n : Nat) (body : List Nat), body.length ≤ n → 0x6D ∉ body →
      ∀ (rest : List Nat) (l : Int) (fuel : Nat),
        (body ++ 0x6D :: rest).length ≤ fuel →
        runeCountLoop pr fuel (body ++ 0x6D :: rest) true l =
          runeCountLoop pr rest.length rest false l := by
  intro n
  induction n with
  | zero =>
    intro body hlen _ rest l fuel hf
    have : body = [] := List.length_eq_zero.mp (by omega)
    subst this
    simp only [List.nil_append, List.length_cons] at hf ⊢
    obtain ⟨f, rfl⟩ : ∃ f, fuel = f + 1 := ⟨fuel - 1, by omega⟩
    rw [runeCountLoop_succ, decodeRune_ascii rest (by omega)]
    simp only [scanRune_fst_snd, List.drop_succ_cons, List.drop_zero]
    simp only [Nat.reduceEqDiff, if_false, if_true]
    exact runeCountLoop_fuel pr f rest false l (by omega)
  | succ n ih =>
    intro body hlen hm rest l fuel hf
    cases body with
    | nil => exact ih [] (by simp) hm rest l fuel hf
    | cons b0 bs =>
      simp only [List.cons_append, List.length_cons, List.length_append] at hf hlen
      obtain ⟨f, rfl⟩ : ∃ f, fuel = f + 1 := ⟨fuel - 1, by omega⟩
      have hb0 : b0 ≠ 0x6D := fun h => hm (h ▸ List.mem_cons_self _ _)
      have hstop := decodeRune_stop b0 0x6D bs rest (by omega)
      have hpos := decodeRune_size_pos b0 (bs ++ 0x6D :: rest)
      have hrune := decodeRune_rune_ne_ascii 0x6D b0 (bs ++ 0x6D :: rest) (by omega) hb0
      simp only [List.cons_append] at hstop ⊢
      rw [runeCountLoop_succ]
      have hst : scanRune pr (true, l) (DecodeRune (b0 :: (bs ++ 0x6D :: rest))).1 = (true, l) := by
        rw [scanRune_fst_snd]
        split_ifs <;> simp_all
      rw [hst]
      have hdrop : List.drop (DecodeRune (b0 :: (bs ++ 0x6D :: rest))).2 (b0 :: (bs ++ 0x6D :: rest))
          = List.drop (DecodeRune (b0 :: (bs ++ 0x6D :: rest))).2 (b0 :: bs) ++ 0x6D :: rest := by
        rw [← List.cons_append]
        exact List.drop_append_of_le_length (by simpa using hstop)
      rw [hdrop]
      apply ih
      · simp only [List.length_drop, List.length_cons]
        omega
      · intro hmem
        exact hm (List.mem_of_mem_drop hmem)
      · simp only [List.length_append, List.length_drop, List.length_cons]
        omega

/-- C8. Escape transparency: removing an escape sequence `ESC body m`, whose
`body` is any byte string without `m`, from between a valid UTF-8 string `a`
that ends outside an escape sequence and a string `b` does not change
`RuneCount`.  It holds for every `b`, the valid UTF-8 strings among them. -/
theorem RuneCount_escape_transparent (pr : Nat → Bool) (ra body b : List Nat)
    (hva : ∀ r ∈ ra, ValidRune r)
    (hend : (runeCountLoop pr (utf8Encode ra).length (utf8Encode ra) false 0).1 = false)
    (hbody : 0x6D ∉ body) :
    RuneCount pr (utf8Encode ra ++ (0x1B :: body ++ 0x6D :: b))
      = RuneCount pr (utf8Encode ra ++ b) := by
  have ha := runeCountLoop_encode_append pr ra hva [] false 0 (utf8Encode ra).length (by simp)
  simp only [List.append_nil, List.length_nil, runeCountLoop_nil] at ha
  rw [ha] at hend
  unfold RuneCount
  rw [runeCountLoop_encode_append pr ra hva _ false 0 _ (le_refl _),
    runeCountLoop_encode_append pr ra hva _ false 0 _ (le_refl _)]
  generalize ra.foldl (scanRune pr) (false, 0) = st at hend ⊢
  obtain ⟨s, l⟩ := st
  simp only at hend ⊢
  subst hend
  simp only [List.cons_append, List.length_cons]
  rw [runeCountLoop_succ, decodeRune_ascii _ (by omega)]
  simp only [scanRune_fst_snd, if_true, List.drop_succ_cons, List.drop_zero]
  rw [runeCountLoop_body pr body.length body (le_refl _) hbody b l _ (le_refl _)]

theorem RuneCount_escape_transparent_witness :
    RuneCount (fun _ => true) (utf8Encode [97] ++ (0x1B :: [91, 51, 52] ++ 0x6D :: utf8Encode [98]))
      = RuneCount (fun _ => true) (utf8Encode [97] ++ utf8Encode [98]) :=
  RuneCount_escape_transparent (fun _ => true) [97] [91, 51, 52] (utf8Encode [98])
    (by intro r hr; simp at hr; unfold ValidRune; omega) (by rfl) (by decide)

/-! ## `GreedyIndent`: claim C7 -/

theorem runeCountLoop_snd_ge (pr : Nat → Bool) :
    ∀ (fuel : Nat) (b : List Nat) (s : Bool) (l : Int), l ≤ (runeCountLoop pr fuel b s l).2 := by
  intro fuel
  induction fuel with
  | zero => intro b s l; simp [runeCountLoop]
  | succ fuel ih =>
    intro b s l
    cases b with
    | nil => simp [runeCountLoop]
    | cons b0 bs =>
      rw [runeCountLoop_succ]
      refine le_trans ?_ (ih _ _ _)
      rw [scanRune_fst_snd]
      split_ifs <;> simp

theorem RuneCount_nonneg (pr : Nat → Bool) (str : List Nat) : 0 ≤ RuneCount pr str :=
  runeCountLoop_snd_ge pr _ _ _ _

theorem sum_RuneCount_nonneg (pr : Nat → Bool) (ws : List (List Nat)) :
    0 ≤ (ws.map (RuneCount pr)).sum := by
  induction ws with
  | nil => simp
  | cons w ws ih =>
    have := RuneCount_nonneg pr w
    simp only [List.map_cons, List.sum_cons]
    omega

/-- The words the inner loop leaves over are a suffix of the words it was
given. -/
theorem greedyLine_suffix (pr : Nat → Bool) (width indent : Int) :
    ∀ (ws : List (List Nat)) (count : Int) (line : List Nat),
      (greedyLine pr width indent ws count line).2 <:+ ws := by
  intro ws
  induction ws with
  | nil => intro count line; simp [greedyLine]
  | cons w ws ih =>
    intro count line
    simp only [greedyLine]
    split_ifs <;>
      first
        | exact List.suffix_refl _
        | exact (ih _ _).trans (List.suffix_cons _ _)

/-- The inner loop takes every word of `c1` when the line has room for them
all, each with a separating space. -/
theorem greedyLine_takes (pr : Nat → Bool) (width indent : Int) :
    ∀ (c1 tail : List (List Nat)) (count bound : Int) (line : List Nat),
      0 ≤ count → count ≤ bound →
      indent + bound + (c1.map (RuneCount pr)).sum + (c1.length : Int) ≤ width →
      (greedyLine pr width indent (c1 ++ tail) count line).2 <:+ tail := by
  intro c1
  induction c1 with
  | nil =>
    intro tail count bound line _ _ _
    exact greedyLine_suffix pr width indent tail count line
  | cons w c1 ih =>
    intro tail count bound line h0 hb hw
    have hrc := RuneCount_nonneg pr w
    have hsum := sum_RuneCount_nonneg pr c1
    simp only [List.map_cons, List.sum_cons, List.length_cons, Nat.cast_add, Nat.cast_one] at hw
    simp only [List.cons_append, greedyLine]
    have hlen : (0 : Int) ≤ (c1.length : Int) := Int.natCast_nonneg _
    rw [if_neg]
    · apply ih tail _ (bound + RuneCount pr w + 1)
      · split_ifs <;> omega
      · split_ifs <;> omega
      · omega
    · rintro ⟨hgt, hne⟩
      rw [if_pos hne] at hgt
      omega

/-- At the start of a line the inner loop takes at least a whole admissible
group of words. -/
theorem greedyLine_first (pr : Nat → Bool) (width indent : Int) (w : List Nat)
    (c1 tail : List (List Nat)) (line : List Nat)
    (hfit : FitsLine pr width indent (w :: c1)) :
    (greedyLine pr width indent (w :: c1 ++ tail) 0 line).2 <:+ tail := by
  have hrc := RuneCount_nonneg pr w
  simp only [List.cons_append, greedyLine, ne_eq, not_true_eq_false, and_false, if_false,
    zero_add]
  cases c1 with
  | nil => exact greedyLine_suffix pr width indent _ _ _
  | cons w2 c2 =>
    rcases hfit with h | h
    · simp at h
    · apply greedyLine_takes pr width indent (w2 :: c2) tail _ (RuneCount pr w) _ hrc (le_refl _)
      simp only [lineWidth, List.map_cons, List.sum_cons, List.length_cons, Nat.cast_add,
        Nat.cast_one] at h ⊢
      omega

/-- A suffix of an admissible line is admissible. -/
theorem FitsLine_suffix (pr : Nat → Bool) (width indent : Int) (t c1 : List (List Nat))
    (h : FitsLine pr width indent (t ++ c1)) : FitsLine pr width indent c1 := by
  by_cases hl : c1.length ≤ 1
  · exact Or.inl hl
  · rcases h with h | h
    · simp only [List.length_append] at h
      omega
    · right
      have := sum_RuneCount_nonneg pr t
      simp only [lineWidth, List.map_append, List.sum_append, List.length_append,
        Nat.cast_add] at h ⊢
      omega

/-- The greedy loop stays ahead of every admissible split: from a suffix of
the words of `cs` it emits at most as many lines as `cs` has. -/
theorem greedyLoop_le (pr : Nat → Bool) (width firstIndent restIndent : Int)
    (hf : 0 ≤ firstIndent) (hr : 0 ≤ restIndent) :
    ∀ (cs : List (List (List Nat))) (fuel : Nat) (ws : List (List Nat))
      (lines : List (List Nat)),
      ws <:+ cs.flatten →
      FitsSplit pr width (if lines.length = 0 then firstIndent else restIndent) restIndent cs →
      ws.length ≤ fuel →
      ∃ new, greedyLoop pr width firstIndent restIndent fuel ws lines = some (lines ++ new)
        ∧ new.length ≤ cs.length := by
  intro cs
  induction cs with
  | nil =>
    intro fuel ws lines hsuf _ _
    have : ws = [] := by simpa using hsuf
    subst this
    exact ⟨[], by cases fuel <;> simp [greedyLoop], by simp⟩
  | cons c cs ih =>
    intro fuel ws lines hsuf hfit hfuel
    cases ws with
    | nil => exact ⟨[], by cases fuel <;> simp [greedyLoop], by simp⟩
    | cons w ws =>
      obtain ⟨fuel, rfl⟩ : ∃ k, fuel = k + 1 := ⟨fuel - 1, by simp at hfuel; omega⟩
      obtain ⟨hfc, hfcs⟩ := hfit
      have hind : (0 : Int) ≤ (if lines.length = 0 then firstIndent else restIndent) := by
        split_ifs <;> assumption
      simp only [greedyLoop, RepeatSpace, if_neg (not_lt.mpr hind)]
      generalize hline : List.replicate
        (if lines.length = 0 then firstIndent else restIndent).toNat 32 = line
      -- the words left after this line are a suffix of the remaining chunks
      have hrest : (greedyLine pr width (if lines.length = 0 then firstIndent else restIndent)
          (w :: ws) 0 line).2 <:+ cs.flatten := by
        obtain ⟨t, ht⟩ := hsuf
        simp only [List.flatten_cons] at ht
        rcases List.append_eq_append_iff.mp ht with ⟨a1, hc, hws⟩ | ⟨c1, ht1, hj⟩
        · cases a1 with
          | nil =>
            simp only [List.nil_append] at hws
            rw [hws]
            exact greedyLine_suffix pr width _ _ _ _
          | cons w1 a1 =>
            simp only [List.cons_append, List.cons.injEq] at hws
            obtain ⟨rfl, rfl⟩ := hws
            rw [hc] at hfc
            exact greedyLine_first pr width _ w a1 cs.flatten line
              (FitsLine_suffix pr width _ t (w :: a1) hfc)
        · exact (greedyLine_suffix pr width _ _ _ _).trans ⟨c1, hj.symm⟩
      have hshort : (greedyLine pr width (if lines.length = 0 then firstIndent else restIndent)
          (w :: ws) 0 line).2.length ≤ fuel := by
        have h1 : (greedyLine pr width (if lines.length = 0 then firstIndent else restIndent)
            (w :: ws) 0 line).2 <:+ ws := by
          simp only [greedyLine, ne_eq, not_true_eq_false, and_false, if_false, zero_add]
          exact greedyLine_suffix pr width _ _ _ _
        have := h1.length_le
        simp only [List.length_cons] at hfuel
        omega
      have hfit2 : FitsSplit pr width
          (if (lines ++ [(greedyLine pr width (if lines.length = 0 then firstIndent
            else restIndent) (w :: ws) 0 line).1]).length = 0 then firstIndent else restIndent)
          restIndent cs := by
        rw [if_neg (by simp)]
        cases cs with
        | nil => trivial
        | cons c2 cs2 =>
          exact ⟨hfcs c2 (List.mem_cons_self _ _),
            fun c3 h3 => hfcs c3 (List.mem_cons_of_mem _ h3)⟩
      obtain ⟨new, hnew, hlen⟩ := ih fuel _ _ hrest hfit2 hshort
      refine ⟨(greedyLine pr width (if lines.length = 0 then firstIndent else restIndent)
          (w :: ws) 0 line).1 :: new, ?_, by simpa using hlen⟩
      rw [hnew]
      simp

/-- C7. `GreedyIndent` emits the minimum number of lines: no split of the word
sequence into consecutive lines, in which every line of more than one word has
indent plus width at most `width`, has fewer lines.  The splits into non-empty
lines are among the splits `chunks` ranges over. -/
theorem GreedyIndent_min_lines (pr : Nat → Bool) (str : List Nat)
    (width firstIndent restIndent : Int) (hf : 0 ≤ firstIndent) (hr : 0 ≤ restIndent)
    (chunks : List (List (List Nat)))
    (hjoin : chunks.flatten = Fields str)
    (hfit : FitsSplit pr width firstIndent restIndent chunks) :
    ∃ lines, greedyLines pr (Fields str) width firstIndent restIndent = some lines
      ∧ GreedyIndent pr str width firstIndent restIndent = some (Join lines [0x0A])
      ∧ lines.length ≤ chunks.length := by
  obtain ⟨new, hnew, hlen⟩ := greedyLoop_le pr width firstIndent restIndent hf hr chunks
    (Fields str).length (Fields str) [] (by rw [hjoin]) (by simpa using hfit) (le_refl _)
  refine ⟨new, ?_, ?_, hlen⟩
  · simpa [greedyLines] using hnew
  · simp only [GreedyIndent, greedyLines, hnew, List.nil_append, Option.map_some']

theorem GreedyIndent_min_lines_witness :
    ∃ lines, greedyLines (fun _ => true) (Fields [97, 97, 32, 98, 98, 32, 99, 99]) 5 0 0
        = some lines
      ∧ GreedyIndent (fun _ => true) [97, 97, 32, 98, 98, 32, 99, 99] 5 0 0
        = some (Join lines [0x0A])
      ∧ lines.length ≤ [[[97, 97], [98, 98]], [[99, 99]]].length :=
  GreedyIndent_min_lines (fun _ => true) [97, 97, 32, 98, 98, 32, 99, 99] 5 0 0
    (by decide) (by decide) [[[97, 97], [98, 98]], [[99, 99]]] (by rfl)
    ⟨Or.inr (by decide), fun c hc => Or.inl (by
      simp only [List.mem_singleton] at hc
      subst hc
      decide)⟩

/-! ## `BalancedIndent`: the search keeps its indices in range -/

theorem getI_isSome (xs : List Int) (i : Int) (h0 : 0 ≤ i) (h1 : i < xs.length) :
    ∃ v, getI xs i = some v := by
  unfold getI
  rw [if_neg (by omega)]
  have h : i.toNat < xs.length := by omega
  exact ⟨xs[i.toNat], List.getElem?_eq_getElem h⟩

theorem setI_eq {xs : List Int} {i : Int} (v : Int) (h0 : 0 ≤ i) (h1 : i < xs.length) :
    setI xs i v = some (xs.set i.toNat v) := by
  unfold setI
  rw [if_neg (by omega)]

theorem getI_set {xs : List Int} {i : Int} (v : Int) (h0 : 0 ≤ i) (h1 : i < xs.length)
    (k : Int) : getI (xs.set i.toNat v) k = if k = i then some v else getI xs k := by
  unfold getI
  by_cases hk : k < 0
  · rw [if_pos hk, if_pos hk, if_neg (by omega)]
  · rw [if_neg hk, if_neg hk, List.getElem?_set]
    by_cases hki : k = i
    · subst hki
      rw [if_pos rfl, if_pos rfl, if_pos (by omega)]
    · rw [if_neg hki, if_neg (by omega)]

theorem cost_isSome (c : Ctx) (minima : List Int) (count : Nat) (i j : Int)
    (hO : c.offsets.length = count + 1) (hM : minima.length = count + 1)
    (hi0 : 0 ≤ i) (hi1 : i ≤ count) (hj0 : 0 ≤ j) (hj1 : j ≤ count) :
    ∃ v, cost c minima i j = some v := by
  obtain ⟨oj, hoj⟩ := getI_isSome c.offsets _ hj0 (by omega)
  obtain ⟨oi, hoi⟩ := getI_isSome c.offsets _ hi0 (by omega)
  obtain ⟨mi, hmi⟩ := getI_isSome minima _ hi0 (by omega)
  simp only [cost, hoj, hoi, hmi]
  split_ifs <;> exact ⟨_, rfl⟩

theorem TablesOK.mono {count : Nat} {E E1 : Int} {t : Tables} (h : TablesOK count E t)
    (hE : E ≤ E1) : TablesOK count E1 t :=
  ⟨h.lenM, h.lenB, fun j y hy => by
    obtain ⟨h1, h2, h3⟩ := h.brk j y hy
    exact ⟨h1, by omega, h3⟩⟩

/-- The loop over the candidates `i` of one target `j` keeps the tables in
range and does not panic. -/
theorem searchInner_ok (c : Ctx) (count : Nat) (E j : Int)
    (hO : c.offsets.length = count + 1) (hEj : E ≤ j) (hj : j ≤ count) :
    ∀ (k : Nat) (i : Int) (t : Tables), TablesOK count E t → 0 ≤ i → i + k ≤ E →
      ∃ t1, searchInner c j k i t = some t1 ∧ TablesOK count E t1 := by
  intro k
  induction k with
  | zero => intro i t ht _ _; exact ⟨t, rfl, ht⟩
  | succ k ih =>
    intro i t ht hi0 hik
    push_cast at hik
    obtain ⟨cst, hc⟩ := cost_isSome c t.minima count i j hO ht.lenM hi0 (by omega) (by omega) hj
    obtain ⟨mj, hm⟩ := getI_isSome t.minima (j) (by omega)
      (by rw [ht.lenM]; push_cast; omega)
    simp only [searchInner, hc, hm]
    split_ifs with hle
    · rw [setI_eq cst (by omega) (by rw [ht.lenM]; push_cast; omega),
        setI_eq i (by omega) (by rw [ht.lenB]; push_cast; omega)]
      apply ih
      · refine ⟨by simp [ht.lenM], by simp [ht.lenB], ?_⟩
        intro j1 y hy
        simp only at hy
        rw [getI_set i (by omega) (by rw [ht.lenB]; push_cast; omega)] at hy
        split_ifs at hy with hj1
        · simp only [Option.some.injEq] at hy
          subst hy hj1
          exact ⟨hi0, by omega, fun _ => by omega⟩
        · exact ht.brk j1 y hy
      · omega
      · omega
    · exact ih _ _ ht (by omega) (by omega)

/-- The stack loop of `search` terminates within `stackWork` pops, keeps the
tables in range and does not panic. -/
theorem searchLoop_ok (c : Ctx) (count : Nat) (E N : Int)
    (hO : c.offsets.length = count + 1) (hE : 1 ≤ E) (hN : N ≤ count + 1) :
    ∀ (fuel : Nat) (stack : List (Int × Int × Int × Int)) (t : Tables),
      TablesOK count E t → (∀ e ∈ stack, EntryOK E N e) → stackWork stack ≤ fuel →
      ∃ t1, searchLoop c fuel stack t = some t1 ∧ TablesOK count E t1 := by
  intro fuel
  induction fuel with
  | zero =>
    intro stack t ht _ hw
    cases stack with
    | nil => exact ⟨t, rfl, ht⟩
    | cons e es => simp [stackWork] at hw
  | succ fuel ih =>
    intro stack t ht hst hw
    cases stack with
    | nil => exact ⟨t, rfl, ht⟩
    | cons e es =>
      obtain ⟨i0, j0, i1, j1⟩ := e
      have he : EntryOK E N (i0, j0, i1, j1) := hst _ (List.mem_cons_self _ _)
      have hes : ∀ e ∈ es, EntryOK E N e := fun e h => hst e (List.mem_cons_of_mem _ h)
      obtain ⟨h1, h2, h3, h4, h5⟩ := he
      simp only at h1 h2 h3 h4 h5
      simp only [stackWork] at hw
      simp only [searchLoop]
      split_ifs with hlt
      · have hdiv : Int.tdiv (j0 + j1) 2 = (j0 + j1) / 2 :=
          Int.tdiv_eq_ediv (by omega) (by omega)
        rw [hdiv]
        obtain ⟨t1, hin, ht1⟩ := searchInner_ok c count E ((j0 + j1) / 2) hO (by omega)
          (by omega) (i1 - i0).toNat i0 t ht h1 (by omega)
        obtain ⟨bj, hbj⟩ := getI_isSome t1.breaks ((j0 + j1) / 2) (by omega)
          (by rw [ht1.lenB]; push_cast; omega)
        obtain ⟨hb0, hb1, _⟩ := ht1.brk _ _ hbj
        simp only [hin, hbj]
        apply ih _ _ ht1
        · intro e hmem
          rcases List.mem_cons.mp hmem with rfl | hmem
          · exact ⟨h1, h2, by simp only; omega, h4, by simp only; omega⟩
          · rcases List.mem_cons.mp hmem with rfl | hmem
            · exact ⟨hb0, by simp only; omega, h3, by simp only; omega, h5⟩
            · exact hes e hmem
        · simp only [stackWork]
          omega
      · exact ih _ _ ht hes (by omega)

/-- A call of `search` returns, with the tables in range. -/
theorem search_ok (c : Ctx) (count : Nat) (E N : Int) (i0 : Int)
    (hO : c.offsets.length = count + 1) (hE : 1 ≤ E) (hN : N ≤ count + 1)
    (h0 : 0 ≤ i0) (h1 : i0 ≤ E) (t : Tables) (ht : TablesOK count E t) :
    ∃ t1, search c i0 E E N t = some t1 ∧ TablesOK count E t1 := by
  unfold search
  apply searchLoop_ok c count E N hO hE hN _ _ t ht
  · intro e he
    simp only [List.mem_singleton] at he
    subst he
    exact ⟨h0, h1, le_refl _, le_refl _, le_refl _⟩
  · simp [stackWork]

/-! ## `BalancedIndent`: `OuterLoop` terminates -/

/-- The scan for a restart point reads the tables in range, and a restart
point lies in the scanned range. -/
theorem findRestart_ok (c : Ctx) (minima : List Int) (count : Nat) (offset r x : Int)
    (hO : c.offsets.length = count + 1) (hM : minima.length = count + 1)
    (hoff : 0 ≤ offset) (hr1 : 1 ≤ r) (hr : r + offset ≤ count + 1) :
    ∀ (k : Nat) (j : Int), 0 ≤ j → j + k ≤ r - 1 ∨ k = 0 →
      ∃ res, findRestart c minima offset r x k j = some res
        ∧ ∀ j1, res = some j1 → j ≤ j1 ∧ j1 < j + k := by
  intro k
  induction k with
  | zero => intro j _ _; exact ⟨none, rfl, fun j1 h => by cases h⟩
  | succ k ih =>
    intro j hj hjk
    have hjk1 : j + (k + 1 : Nat) ≤ r - 1 := by
      rcases hjk with h | h
      · exact h
      · omega
    push_cast at hjk1
    obtain ⟨y, hy⟩ := cost_isSome c minima count (j + offset) (r - 1 + offset) hO hM
      (by omega) (by omega) (by omega) (by omega)
    simp only [findRestart, hy]
    split_ifs with hle
    · refine ⟨some j, rfl, ?_⟩
      intro j1 h
      simp only [Option.some.injEq] at h
      subst h
      push_cast
      omega
    · obtain ⟨res, hres, hprop⟩ := ih (j + 1) (by omega) (Or.inl (by omega))
      refine ⟨res, hres, ?_⟩
      intro j1 h
      have := hprop j1 h
      push_cast
      omega

theorem two_pow_facts (i : Nat) :
    (1 : Int) ≤ 2 ^ i ∧ ((i : Int) < 2 ^ i) ∧ ((2 : Int) ^ (i + 1) = 2 * 2 ^ i) := by
  refine ⟨?_, ?_, ?_⟩
  · exact one_le_pow₀ (by norm_num)
  · exact_mod_cast Nat.lt_two_pow i
  · rw [pow_succ]; ring

/-- The loop `OuterLoop` terminates within `outerWork` rounds, keeps the tables
in range and does not panic. -/
theorem outerLoop_ok (c : Ctx) (count : Nat) (hO : c.offsets.length = count + 1) :
    ∀ (fuel : Nat) (n : Int) (i : Nat) (offset : Int) (t : Tables),
      0 ≤ offset → n + offset = count + 1 → (2 : Int) ^ i ≤ n →
      TablesOK count (2 ^ i + offset) t → outerWork count n i < fuel →
      ∃ t1 E1, outerLoop c fuel n i offset t = some t1 ∧ TablesOK count E1 t1 := by
  intro fuel
  induction fuel with
  | zero => intro n i offset t _ _ _ _ hw; omega
  | succ fuel ih =>
    intro n i offset t hoff hn hi ht hw
    obtain ⟨hp1, hp2, hp3⟩ := two_pow_facts i
    obtain ⟨t1, hs, ht1⟩ := search_ok c count (2 ^ i + offset) (min n (2 ^ (i + 1)) + offset)
      offset hO (by omega) (by omega) hoff (by omega) t ht
    obtain ⟨x, hx⟩ := getI_isSome t1.minima (min n (2 ^ (i + 1)) - 1 + offset)
      (by omega) (by rw [ht1.lenM]; push_cast; omega)
    obtain ⟨res, hres, hprop⟩ := findRestart_ok c t1.minima count offset (min n (2 ^ (i + 1))) x
      hO ht1.lenM hoff (by omega) (by omega) (min n (2 ^ (i + 1)) - 1 - 2 ^ i).toNat (2 ^ i)
      (by omega) (by omega)
    simp only [outerLoop, hs, hx, hres]
    cases res with
    | some j =>
      obtain ⟨hj1, hj2⟩ := hprop j rfl
      simp only
      apply ih
      · omega
      · omega
      · simp only [pow_zero]; omega
      · simp only [pow_zero]; exact ht1.mono (by omega)
      · have h1 : (n - j).toNat + 1 ≤ n.toNat := by omega
        have h2 := Nat.mul_le_mul_right (count + 2) h1
        rw [Nat.add_mul] at h2
        simp only [outerWork] at hw ⊢
        omega
    | none =>
      simp only
      split_ifs with hrn
      · exact ⟨t1, _, rfl, ht1⟩
      · apply ih
        · exact hoff
        · exact hn
        · omega
        · exact ht1.mono (by omega)
        · have hlt : ((i : Int) + 1) < count + 1 := by
            have := (two_pow_facts (i + 1)).2.1
            push_cast at this
            omega
          simp only [outerWork] at hw ⊢
          omega

/-! ## `BalancedIndent`: claim C2 -/

theorem initOffsets_length (pr : Nat → Bool) :
    ∀ (ws : List (List Nat)) (acc : Int), (initOffsets pr ws acc).length = ws.length := by
  intro ws
  induction ws with
  | nil => intro acc; rfl
  | cons w ws ih => intro acc; simp [initOffsets, ih]

theorem renderSplit_append_singleton (f r : Int) (chunks : List (List (List Nat)))
    (ch : List (List Nat)) :
    renderSplit f r (chunks ++ [ch])
      = renderSplit f r chunks ++ [renderLine (if chunks = [] then f else r) ch] := by
  cases chunks with
  | nil => simp [renderSplit]
  | cons c cs => simp [renderSplit]

/-- The reconstruction loop returns the rendering of a split of `words[:j]`
into non-empty chunks. -/
theorem rebuild_ok (c : Ctx) (words : List (List Nat)) (breaks : List Int)
    (hf : 0 ≤ c.firstIndent) (hr : 0 ≤ c.restIndent)
    (hlen : breaks.length = words.length + 1)
    (hB : ∀ j y : Int, getI breaks j = some y → 0 ≤ y ∧ (1 ≤ j → y < j)) :
    ∀ (fuel j : Nat) (lines : List (List Nat)), j ≤ words.length → j ≤ fuel →
      ∃ chunks : List (List (List Nat)), (∀ ch ∈ chunks, ch ≠ [])
        ∧ chunks.flatten = words.take j
        ∧ rebuild c words breaks fuel j lines
            = some (renderSplit c.firstIndent c.restIndent chunks ++ lines) := by
  intro fuel
  induction fuel with
  | zero =>
    intro j lines _ hj
    have : j = 0 := by omega
    subst this
    exact ⟨[], by simp, by simp, by simp [rebuild, renderSplit]⟩
  | succ fuel ih =>
    intro j lines hjw hjf
    by_cases hj0 : j = 0
    · subst hj0
      exact ⟨[], by simp, by simp, by simp [rebuild, renderSplit]⟩
    · obtain ⟨y, hy⟩ := getI_isSome breaks ((j : Int)) (by omega)
        (by rw [hlen]; push_cast; omega)
      obtain ⟨hy0, hyj⟩ := hB _ _ hy
      have hyj : y < j := hyj (by omega)
      have hind : (0 : Int) ≤ (if y ≤ 0 then c.firstIndent else c.restIndent) := by
        split_ifs <;> assumption
      obtain ⟨chunks, hne, hflat, hreb⟩ := ih y.toNat
        ((List.replicate (if y ≤ 0 then c.firstIndent else c.restIndent).toNat 0x20
          ++ Join ((words.drop y.toNat).take ((j : Int).toNat - y.toNat)) [0x20]) :: lines)
        (by omega) (by omega)
      have hcast : ((y.toNat : Nat) : Int) = y := by omega
      rw [hcast] at hreb
      have hjn : (j : Int).toNat = j := by omega
      refine ⟨chunks ++ [(words.drop y.toNat).take (j - y.toNat)], ?_, ?_, ?_⟩
      · intro ch hch
        rcases List.mem_append.mp hch with h | h
        · exact hne ch h
        · simp only [List.mem_singleton] at h
          subst h
          apply List.ne_nil_of_length_pos
          simp only [List.length_take, List.length_drop]
          omega
      · rw [List.flatten_append, hflat]
        simp only [List.flatten_cons, List.flatten_nil, List.append_nil]
        have : j = y.toNat + (j - y.toNat) := by omega
        conv_rhs => rw [this, List.take_add]
      · have hnil : (chunks = []) ↔ y ≤ 0 := by
          constructor
          · intro h
            subst h
            simp only [List.flatten_nil] at hflat
            have := congrArg List.length hflat
            simp only [List.length_nil, List.length_take] at this
            omega
          · intro h
            have hy' : y.toNat = 0 := by omega
            rw [hy'] at hflat
            simp only [List.take_zero] at hflat
            cases chunks with
            | nil => rfl
            | cons c1 cs =>
              exfalso
              have h1 := hne c1 (List.mem_cons_self _ _)
              simp only [List.flatten_cons, List.append_eq_nil] at hflat
              exact h1 hflat.1
        have hif : (if chunks = [] then c.firstIndent else c.restIndent)
            = (if y ≤ 0 then c.firstIndent else c.restIndent) := by
          by_cases h : y ≤ 0
          · rw [if_pos h, if_pos (hnil.mpr h)]
          · rw [if_neg h, if_neg (fun hc => h (hnil.mp hc))]
        have hslice : sliceWords words y j
            = some ((words.drop y.toNat).take ((j : Int).toNat - y.toNat)) := by
          unfold sliceWords
          rw [if_neg (by omega)]
        have hjpos : (j : Int) > 0 := by omega
        simp only [rebuild, if_pos hjpos, hy, RepeatSpace, if_neg (not_lt.mpr hind), hslice, hreb]
        rw [renderSplit_append_singleton, hif, hjn]
        simp [renderLine]

/-- The tables `BalancedIndent` computes exist and are in range: `OuterLoop`
and every `search` return without a panic. -/
theorem balancedTables_ok (pr : Nat → Bool) (words : List (List Nat))
    (width firstIndent restIndent : Int) :
    ∃ t E, balancedTables pr words width firstIndent restIndent = some t
      ∧ TablesOK words.length E t := by
  unfold balancedTables
  obtain ⟨t1, E1, h1, h2⟩ := outerLoop_ok
    ⟨width, firstIndent, restIndent, 0 :: initOffsets pr words 0⟩ words.length
    (by simp [initOffsets_length])
    ((words.length + 2) * (words.length + 2)) (words.length + 1) 0 0
    ⟨0 :: List.replicate words.length MaxInt32, List.replicate (words.length + 1) 0⟩
    (le_refl _) (by simp) (by simp)
    ⟨by simp, by simp, by
      intro j y hy
      simp only [getI] at hy
      split_ifs at hy with hneg
      rw [List.getElem?_eq_some] at hy
      obtain ⟨_, hy⟩ := hy
      simp only [List.getElem_replicate] at hy
      subst hy
      simp only [pow_zero, add_zero]
      omega⟩
    (by
      simp only [outerWork]
      have : ((words.length : Int) + 1).toNat = words.length + 1 := by omega
      rw [this]
      ring_nf
      omega)
  exact ⟨t1, E1, h1, h2⟩

/-- The lines of `BalancedIndent` are the rendering of a split of the words into
consecutive non-empty chunks. -/
theorem balancedLines_ok (pr : Nat → Bool) (words : List (List Nat))
    (width firstIndent restIndent : Int) (hf : 0 ≤ firstIndent) (hr : 0 ≤ restIndent) :
    ∃ chunks : List (List (List Nat)), (∀ ch ∈ chunks, ch ≠ [])
      ∧ chunks.flatten = words
      ∧ balancedLines pr words width firstIndent restIndent
          = some (renderSplit firstIndent restIndent chunks) := by
  obtain ⟨t, E, ht, hok⟩ := balancedTables_ok pr words width firstIndent restIndent
  obtain ⟨chunks, hne, hflat, hreb⟩ := rebuild_ok
    ⟨width, firstIndent, restIndent, 0 :: initOffsets pr words 0⟩ words t.breaks hf hr hok.lenB
    (fun j y hy => ⟨(hok.brk j y hy).1, (hok.brk j y hy).2.2⟩)
    (words.length + 1) words.length [] (le_refl _) (by omega)
  refine ⟨chunks, hne, by simpa using hflat, ?_⟩
  simp only [balancedLines, ht]
  simpa using hreb

/-- C2. The output of `BalancedIndent` is the rendering of a split of
`strings.Fields(str)` into consecutive non-empty chunks: the chunks
concatenated give the words back, each chunk is its indent in spaces followed
by its words joined by single spaces, the first chunk under `firstIndent` and
the others under `restIndent`, and the lines are joined by a newline.  The
table `breaks` it follows holds, at every index from 1 to the word count, a
non-negative index strictly below that index. -/
theorem BalancedIndent_renders_split (pr : Nat → Bool) (str : List Nat)
    (width firstIndent restIndent : Int) (hf : 0 ≤ firstIndent) (hr : 0 ≤ restIndent) :
    IsRenderedSplit (Fields str) firstIndent restIndent
        (BalancedIndent pr str width firstIndent restIndent)
    ∧ (∃ t, balancedTables pr (Fields str) width firstIndent restIndent = some t
      ∧ ∀ j : Int, 1 ≤ j → j ≤ (Fields str).length →
          ∃ y, getI t.breaks j = some y ∧ 0 ≤ y ∧ y < j) := by
  constructor
  · obtain ⟨chunks, hne, hflat, hl⟩ :=
      balancedLines_ok pr (Fields str) width firstIndent restIndent hf hr
    exact ⟨chunks, hne, hflat, by simp [BalancedIndent, hl]⟩
  · obtain ⟨t, E, ht, hok⟩ := balancedTables_ok pr (Fields str) width firstIndent restIndent
    refine ⟨t, ht, ?_⟩
    intro j hj1 hj2
    obtain ⟨y, hy⟩ := getI_isSome t.breaks (j) (by omega)
      (by rw [hok.lenB]; push_cast; omega)
    obtain ⟨h1, _, h3⟩ := hok.brk j y hy
    exact ⟨y, hy, h1, h3 hj1⟩

theorem BalancedIndent_renders_split_witness :
    IsRenderedSplit (Fields [83, 111, 109, 101, 32, 116, 101, 120, 116, 46]) 0 2
        (BalancedIndent (fun _ => true) [83, 111, 109, 101, 32, 116, 101, 120, 116, 46] 4 0 2)
    ∧ (∃ t, balancedTables (fun _ => true)
          (Fields [83, 111, 109, 101, 32, 116, 101, 120, 116, 46]) 4 0 2 = some t
      ∧ ∀ j : Int, 1 ≤ j → j ≤ (Fields [83, 111, 109, 101, 32, 116, 101, 120, 116, 46]).length →
          ∃ y, getI t.breaks j = some y ∧ 0 ≤ y ∧ y < j) :=
  BalancedIndent_renders_split (fun _ => true) [83, 111, 109, 101, 32, 116, 101, 120, 116, 46]
    4 0 2 (by decide) (by decide)

/-! ## Evaluations at the inputs where the code departs from a claim -/

theorem mem_Join_of_mem_head (e : List Nat) (es : List (List Nat)) (sep : List Nat) (b : Nat)
    (h : b ∈ e) : b ∈ Join (e :: es) sep := by
  cases es with
  | nil => simpa [Join] using h
  | cons e2 es => simp [Join, h]

theorem sep_mem_Join (e e2 : List Nat) (es : List (List Nat)) (b : Nat) :
    b ∈ Join (e :: e2 :: es) [b] := by
  simp [Join]

/-- A rendering of a split of two or more words contains a separator: a space
or a newline. -/
theorem separator_mem_of_IsRenderedSplit (w1 w2 : List Nat) (ws : List (List Nat))
    (f r : Int) (out : List Nat) (h : IsRenderedSplit (w1 :: w2 :: ws) f r (some out)) :
    0x20 ∈ out ∨ 0x0A ∈ out := by
  obtain ⟨chunks, hne, hflat, hout⟩ := h
  simp only [Option.some.injEq] at hout
  subst hout
  cases chunks with
  | nil => simp at hflat
  | cons c cs =>
    have hc := hne c (List.mem_cons_self _ _)
    cases c with
    | nil => exact absurd rfl hc
    | cons x xs =>
      cases xs with
      | cons y ys =>
        left
        simp only [renderSplit]
        apply mem_Join_of_mem_head
        simp only [renderLine, List.mem_append]
        right
        exact sep_mem_Join x y ys 0x20
      | nil =>
        right
        cases cs with
        | nil => simp at hflat
        | cons c2 cs2 =>
          simp only [renderSplit, List.map_cons]
          exact sep_mem_Join _ _ _ 0x0A

set_option maxRecDepth 100000 in
/-- C1, evaluation.  The text `ESC[0m a b` has three words; at width 6
`GreedyIndent` returns `ESC[0ma b`: the zero-width first word leaves `count`
at 0, so the second word is appended without the separating space.  The output
is the rendering of no split of the three words, while `BalancedIndent` returns
`ESC[0m a b`. -/
theorem GreedyIndent_glues_zero_width_word (pr : Nat → Bool) :
    Fields [27, 91, 48, 109, 32, 97, 32, 98] = [[27, 91, 48, 109], [97], [98]]
    ∧ GreedyIndent pr [27, 91, 48, 109, 32, 97, 32, 98] 6 0 0
        = some [27, 91, 48, 109, 97, 32, 98]
    ∧ BalancedIndent pr [27, 91, 48, 109, 32, 97, 32, 98] 6 0 0
        = some [27, 91, 48, 109, 32, 97, 32, 98]
    ∧ ¬ IsRenderedSplit [[27, 91, 48, 109], [97]] 0 0
        (GreedyIndent pr [27, 91, 48, 109, 32, 97] 6 0 0) := by
  refine ⟨rfl, rfl, rfl, ?_⟩
  have e : GreedyIndent pr [27, 91, 48, 109, 32, 97] 6 0 0 = some [27, 91, 48, 109, 97] := rfl
  rw [e]
  intro h
  have := separator_mem_of_IsRenderedSplit _ _ _ _ _ _ h
  revert this
  decide

set_option maxRecDepth 100000 in
/-- C3, evaluation.  The text `ESC[0m Mayflower` has two words; at width 6
`GreedyIndent` emits the single line `ESC[0mMayflower`, which holds both words
and has visible width 9. -/
theorem GreedyIndent_two_words_over_width (pr : Nat → Bool) :
    Fields [27, 91, 48, 109, 32, 77, 97, 121, 102, 108, 111, 119, 101, 114]
        = [[27, 91, 48, 109], [77, 97, 121, 102, 108, 111, 119, 101, 114]]
    ∧ greedyLines pr (Fields [27, 91, 48, 109, 32, 77, 97, 121, 102, 108, 111, 119, 101, 114])
        6 0 0 = some [[27, 91, 48, 109, 77, 97, 121, 102, 108, 111, 119, 101, 114]]
    ∧ RuneCount pr [27, 91, 48, 109, 77, 97, 121, 102, 108, 111, 119, 101, 114] = 9 :=
  ⟨rfl, rfl, rfl⟩

set_option maxRecDepth 100000 in
/-- C4, evaluation.  The text `Mayflower a b` has three words; at width 6
`BalancedIndent` emits the single line `Mayflower a b`, which holds all three
words and has visible width 13, while `GreedyIndent` emits `Mayflower` and
`a b`. -/
theorem BalancedIndent_three_words_over_width (pr : Nat → Bool) :
    Fields [77, 97, 121, 102, 108, 111, 119, 101, 114, 32, 97, 32, 98]
        = [[77, 97, 121, 102, 108, 111, 119, 101, 114], [97], [98]]
    ∧ balancedLines pr (Fields [77, 97, 121, 102, 108, 111, 119, 101, 114, 32, 97, 32, 98])
        6 0 0 = some [[77, 97, 121, 102, 108, 111, 119, 101, 114, 32, 97, 32, 98]]
    ∧ RuneCount pr [77, 97, 121, 102, 108, 111, 119, 101, 114, 32, 97, 32, 98] = 13
    ∧ greedyLines pr (Fields [77, 97, 121, 102, 108, 111, 119, 101, 114, 32, 97, 32, 98])
        6 0 0 = some [[77, 97, 121, 102, 108, 111, 119, 101, 114], [97, 32, 98]] :=
  ⟨rfl, rfl, rfl, rfl⟩

set_option maxRecDepth 100000 in
/-- C5, evaluation.  For the text `a b` at width 100000 with `restIndent` 99999
the single line `a b` fits, with raggedness `99997^2`.  Every cost of a line
from word 0 exceeds `math.MaxInt32`, the initial value of `minima`, and is
never stored; `cost(1, 2)` is `MaxInt32 + 0` and is stored.  `BalancedIndent`
breaks after `a`, a split of raggedness `99999^2`. -/
theorem BalancedIndent_not_minimal (pr : Nat → Bool) :
    Fields [97, 32, 98] = [[97], [98]]
    ∧ balancedTables pr [[97], [98]] 100000 0 99999
        = some ⟨[0, 2147483647, 2147483647], [0, 0, 1]⟩
    ∧ balancedLines pr [[97], [98]] 100000 0 99999
        = some (renderSplit 0 99999 [[[97]], [[98]]])
    ∧ BalancedIndent pr [97, 32, 98] 100000 0 99999
        = some (97 :: 10 :: (List.replicate 99999 32 ++ [98]))
    ∧ raggedness pr 100000 0 99999 [[[97]], [[98]]] = 9999800001
    ∧ lineWidth pr [[97], [98]] = 3
    ∧ raggedness pr 100000 0 99999 [[[97], [98]]] = 9999400009 :=
  ⟨rfl, rfl, rfl, rfl, rfl, rfl, rfl⟩

set_option maxRecDepth 100000 in
/-- C6, evaluation.  In `Mayflower a b` the word `Mayflower` has visible width
9; at width 6 `WrapIndent` (and `Wrap`) returns the one line `Mayflower a b`,
on which it stands with the two other words. -/
theorem WrapIndent_wide_word_shares_line (pr : Nat → Bool) :
    RuneCount pr [77, 97, 121, 102, 108, 111, 119, 101, 114] = 9
    ∧ WrapIndent pr [77, 97, 121, 102, 108, 111, 119, 101, 114, 32, 97, 32, 98] 6 0 0
        = some [77, 97, 121, 102, 108, 111, 119, 101, 114, 32, 97, 32, 98]
    ∧ Wrap pr [77, 97, 121, 102, 108, 111, 119, 101, 114, 32, 97, 32, 98] 6
        = some [77, 97, 121, 102, 108, 111, 119, 101, 114, 32, 97, 32, 98] :=
  ⟨rfl, rfl, rfl⟩

set_option maxRecDepth 100000 in
/-- C10, evaluation.  The text `ESC[0m a` fits width 10 (`0 + 0 + 1 + 1 = 2`), and
its words joined by a single space are `ESC[0m a`; `GreedyIndent` and
`WrapIndent` return `ESC[0ma`.  The text `a b` fits width 100000
(`0 + 1 + 1 + 1 = 3`); with `restIndent` 99999 `BalancedIndent` returns two
lines. -/
theorem no_wrap_fails (pr : Nat → Bool) :
    Fields [27, 91, 48, 109, 32, 97] = [[27, 91, 48, 109], [97]]
    ∧ 0 + lineWidth pr [[27, 91, 48, 109], [97]] = 2
    ∧ renderLine 0 [[27, 91, 48, 109], [97]] = [27, 91, 48, 109, 32, 97]
    ∧ GreedyIndent pr [27, 91, 48, 109, 32, 97] 10 0 0 = some [27, 91, 48, 109, 97]
    ∧ WrapIndent pr [27, 91, 48, 109, 32, 97] 10 0 0 = some [27, 91, 48, 109, 97]
    ∧ BalancedIndent pr [27, 91, 48, 109, 32, 97] 10 0 0 = some [27, 91, 48, 109, 32, 97]
    ∧ 0 + lineWidth pr (Fields [97, 32, 98]) = 3
    ∧ (balancedLines pr (Fields [97, 32, 98]) 100000 0 99999).map List.length = some 2 :=
  ⟨rfl, rfl, rfl, rfl, rfl, rfl, rfl, rfl⟩

/-! ## The selector `WrapIndent`: claims C11 to C14 -/

theorem wrap64_eq_self {x : Int} (h1 : -9223372036854775808 ≤ x) (h2 : x < 9223372036854775808) :
    wrap64 x = x := by
  unfold wrap64
  omega

set_option maxRecDepth 100000 in
/-- C11, counterexample.  At `width = math.MaxInt64` the product `width*2` is
`-2` in 64-bit arithmetic, so `WrapIndent` takes the `BalancedIndent` branch for
the text `a b`, although `RuneCount + firstIndent = 3 < 2 * width`; its result
`a\nb` is not that of `GreedyIndent`, `a b`. -/
theorem WrapIndent_selector_overflow :
    RuneCount (fun _ => true) [97, 32, 98] + 0 < 2 * 9223372036854775807
    ∧ GreedyIndent (fun _ => true) [97, 32, 98] 9223372036854775807 0 0 = some [97, 32, 98]
    ∧ WrapIndent (fun _ => true) [97, 32, 98] 9223372036854775807 0 0 = some [97, 10, 98]
    ∧ WrapIndent (fun _ => true) [97, 32, 98] 9223372036854775807 0 0
        ≠ GreedyIndent (fun _ => true) [97, 32, 98] 9223372036854775807 0 0 := by
  refine ⟨by decide, rfl, rfl, by decide⟩

/-- C11, amended.  For a width in `[-2^62, 2^62)`, where `width*2` does not
overflow, and `RuneCount(str) + firstIndent` in the 64-bit range, `WrapIndent`
is `GreedyIndent` when `RuneCount(str) + firstIndent < 2 * width` and
`BalancedIndent` otherwise; and `Wrap(str, width)` is
`WrapIndent(str, width, 0, 0)`. -/
theorem WrapIndent_selector (pr : Nat → Bool) (str : List Nat)
    (width firstIndent restIndent : Int)
    (hw1 : -4611686018427387904 ≤ width) (hw2 : width < 4611686018427387904)
    (hs1 : -9223372036854775808 ≤ RuneCount pr str + firstIndent)
    (hs2 : RuneCount pr str + firstIndent < 9223372036854775808) :
    (RuneCount pr str + firstIndent < 2 * width →
        WrapIndent pr str width firstIndent restIndent
          = GreedyIndent pr str width firstIndent restIndent)
    ∧ (¬ RuneCount pr str + firstIndent < 2 * width →
        WrapIndent pr str width firstIndent restIndent
          = BalancedIndent pr str width firstIndent restIndent)
    ∧ Wrap pr str width = WrapIndent pr str width 0 0 := by
  have e1 : wrap64 (RuneCount pr str + firstIndent) = RuneCount pr str + firstIndent :=
    wrap64_eq_self hs1 hs2
  have e2 : wrap64 (width * 2) = width * 2 := wrap64_eq_self (by omega) (by omega)
  refine ⟨?_, ?_, rfl⟩
  · intro h
    unfold WrapIndent
    rw [e1, e2, if_pos (by omega)]
  · intro h
    unfold WrapIndent
    rw [e1, e2, if_neg (by omega)]

set_option maxRecDepth 100000 in
theorem WrapIndent_selector_witness :
    (RuneCount (fun _ => true) [100, 111, 110, 39, 116, 32, 98, 101, 32, 115, 111, 32, 103, 114,
          101, 101, 100, 121] + 0 < 2 * 8 →
        WrapIndent (fun _ => true) [100, 111, 110, 39, 116, 32, 98, 101, 32, 115, 111, 32, 103,
            114, 101, 101, 100, 121] 8 0 0
          = GreedyIndent (fun _ => true) [100, 111, 110, 39, 116, 32, 98, 101, 32, 115, 111, 32,
            103, 114, 101, 101, 100, 121] 8 0 0)
    ∧ (¬ RuneCount (fun _ => true) [100, 111, 110, 39, 116, 32, 98, 101, 32, 115, 111, 32, 103,
          114, 101, 101, 100, 121] + 0 < 2 * 8 →
        WrapIndent (fun _ => true) [100, 111, 110, 39, 116, 32, 98, 101, 32, 115, 111, 32, 103,
            114, 101, 101, 100, 121] 8 0 0
          = BalancedIndent (fun _ => true) [100, 111, 110, 39, 116, 32, 98, 101, 32, 115, 111,
            32, 103, 114, 101, 101, 100, 121] 8 0 0)
    ∧ Wrap (fun _ => true) [100, 111, 110, 39, 116, 32, 98, 101, 32, 115, 111, 32, 103, 114,
          101, 101, 100, 121] 8
        = WrapIndent (fun _ => true) [100, 111, 110, 39, 116, 32, 98, 101, 32, 115, 111, 32,
          103, 114, 101, 101, 100, 121] 8 0 0 :=
  WrapIndent_selector (fun _ => true) [100, 111, 110, 39, 116, 32, 98, 101, 32, 115, 111, 32,
    103, 114, 101, 101, 100, 121] 8 0 0 (by decide) (by decide) (by decide) (by decide)

/-- C12. The two builders read the text only through `strings.Fields`: two
texts with the same word sequence give the same `GreedyIndent` and the same
`BalancedIndent`. -/
theorem builders_depend_on_Fields (pr : Nat → Bool) (s1 s2 : List Nat)
    (width firstIndent restIndent : Int) (h : Fields s1 = Fields s2) :
    GreedyIndent pr s1 width firstIndent restIndent
        = GreedyIndent pr s2 width firstIndent restIndent
    ∧ BalancedIndent pr s1 width firstIndent restIndent
        = BalancedIndent pr s2 width firstIndent restIndent := by
  unfold GreedyIndent BalancedIndent
  rw [h]
  exact ⟨rfl, rfl⟩

set_option maxRecDepth 100000 in
theorem builders_depend_on_Fields_witness :
    GreedyIndent (fun _ => true) [83, 111, 109, 101, 10, 116, 101, 120, 116, 46] 16 0 0
        = GreedyIndent (fun _ => true) [83, 111, 109, 101, 32, 32, 116, 101, 120, 116, 46] 16 0 0
    ∧ BalancedIndent (fun _ => true) [83, 111, 109, 101, 10, 116, 101, 120, 116, 46] 16 0 0
        = BalancedIndent (fun _ => true) [83, 111, 109, 101, 32, 32, 116, 101, 120, 116, 46]
            16 0 0 :=
  builders_depend_on_Fields (fun _ => true) [83, 111, 109, 101, 10, 116, 101, 120, 116, 46]
    [83, 111, 109, 101, 32, 32, 116, 101, 120, 116, 46] 16 0 0 (by rfl)

set_option maxRecDepth 100000 in
/-- C13, counterexample.  The texts `bb a a` and `bb   a   a  ` have the same
words, but `RuneCount` counts their spaces: at width 4 the first (6 + 0 < 8)
goes to `GreedyIndent` and gives `bb a\na`, the second (12) goes to
`BalancedIndent` and gives `bb\na a`. -/
theorem WrapIndent_depends_on_spaces :
    Fields [98, 98, 32, 97, 32, 97] = Fields [98, 98, 32, 32, 32, 97, 32, 32, 32, 97, 32, 32]
    ∧ WrapIndent (fun _ => true) [98, 98, 32, 97, 32, 97] 4 0 0
        = some [98, 98, 32, 97, 10, 97]
    ∧ WrapIndent (fun _ => true) [98, 98, 32, 32, 32, 97, 32, 32, 32, 97, 32, 32] 4 0 0
        = some [98, 98, 10, 97, 32, 97]
    ∧ WrapIndent (fun _ => true) [98, 98, 32, 97, 32, 97] 4 0 0
        ≠ WrapIndent (fun _ => true) [98, 98, 32, 32, 32, 97, 32, 32, 32, 97, 32, 32] 4 0 0 := by
  refine ⟨rfl, rfl, rfl, by decide⟩

/-- C13, amended.  Two texts with the same word sequence, for which the test
`rc+firstIndent < width*2` of the selector has the same outcome, give the same
`WrapIndent`. -/
theorem WrapIndent_same_words (pr : Nat → Bool) (s1 s2 : List Nat)
    (width firstIndent restIndent : Int) (h : Fields s1 = Fields s2)
    (hsel : wrap64 (RuneCount pr s1 + firstIndent) < wrap64 (width * 2)
      ↔ wrap64 (RuneCount pr s2 + firstIndent) < wrap64 (width * 2)) :
    WrapIndent pr s1 width firstIndent restIndent
      = WrapIndent pr s2 width firstIndent restIndent := by
  unfold WrapIndent GreedyIndent BalancedIndent
  rw [h]
  by_cases hc : wrap64 (RuneCount pr s1 + firstIndent) < wrap64 (width * 2)
  · rw [if_pos hc, if_pos (hsel.mp hc)]
  · rw [if_neg hc, if_neg (fun h2 => hc (hsel.mpr h2))]

set_option maxRecDepth 100000 in
theorem WrapIndent_same_words_witness :
    WrapIndent (fun _ => true) [83, 111, 109, 101, 10, 116, 101, 120, 116, 46] 16 0 0
      = WrapIndent (fun _ => true) [83, 111, 109, 101, 32, 32, 116, 101, 120, 116, 46] 16 0 0 :=
  WrapIndent_same_words (fun _ => true) [83, 111, 109, 101, 10, 116, 101, 120, 116, 46]
    [83, 111, 109, 101, 32, 32, 116, 101, 120, 116, 46] 16 0 0 (by rfl) (by decide)

/-- C14. A text without words gives the empty output: `GreedyIndent`,
`BalancedIndent` and `WrapIndent` return the empty string, with no indent and
no panic, whatever the width and the indents. -/
theorem empty_input_empty_output (pr : Nat → Bool) (str : List Nat)
    (width firstIndent restIndent : Int) (h : Fields str = []) :
    GreedyIndent pr str width firstIndent restIndent = some []
    ∧ BalancedIndent pr str width firstIndent restIndent = some []
    ∧ WrapIndent pr str width firstIndent restIndent = some [] := by
  have hg : GreedyIndent pr str width firstIndent restIndent = some [] := by
    unfold GreedyIndent
    rw [h]
    rfl
  have hb : BalancedIndent pr str width firstIndent restIndent = some [] := by
    unfold BalancedIndent
    rw [h]
    rfl
  refine ⟨hg, hb, ?_⟩
  unfold WrapIndent
  split_ifs
  · exact hg
  · exact hb

set_option maxRecDepth 100000 in
theorem empty_input_empty_output_witness :
    GreedyIndent (fun _ => true) [32, 10, 9, 0xC2, 0xA0, 0xE2, 0x80, 0x83] 10 2 3 = some []
    ∧ BalancedIndent (fun _ => true) [32, 10, 9, 0xC2, 0xA0, 0xE2, 0x80, 0x83] 10 2 3 = some []
    ∧ WrapIndent (fun _ => true) [32, 10, 9, 0xC2, 0xA0, 0xE2, 0x80, 0x83] 10 2 3 = some [] :=
  empty_input_empty_output (fun _ => true) [32, 10, 9, 0xC2, 0xA0, 0xE2, 0x80, 0x83] 10 2 3
    (by rfl)

/-! ## The words of `strings.Fields` and the lines of `GreedyIndent` -/

/-- The bytes of a rune that is not white space hold no newline. -/
theorem newline_not_mem_rune (b : Nat) (bs : List Nat)
    (hsp : IsSpace (DecodeRune (b :: bs)).1 = false) :
    0x0A ∉ (b :: bs).take (DecodeRune (b :: bs)).2 := by
  intro hmem
  obtain ⟨s, t, hst⟩ := List.append_of_mem hmem
  have hfull : b :: bs = s ++ 0x0A :: (t ++ (b :: bs).drop (DecodeRune (b :: bs)).2) := by
    conv_lhs => rw [← List.take_append_drop (DecodeRune (b :: bs)).2 (b :: bs), hst]
    simp
  have hlen : s.length + 1 ≤ (DecodeRune (b :: bs)).2 := by
    have h1 := congrArg List.length hst
    simp only [List.length_take, List.length_append, List.length_cons] at h1
    omega
  cases s with
  | nil =>
    simp only [List.nil_append, List.cons.injEq] at hfull
    obtain ⟨hb, _⟩ := hfull
    subst hb
    rw [decodeRune_ascii bs (by omega)] at hsp
    revert hsp
    decide
  | cons s0 s1 =>
    simp only [List.cons_append, List.cons.injEq] at hfull
    obtain ⟨hb, hbs⟩ := hfull
    subst hb
    have hstop := decodeRune_stop b 0x0A s1
      (t ++ List.drop (DecodeRune (b :: bs)).2 (b :: bs)) (by omega)
    rw [List.cons_append, ← hbs] at hstop
    simp only [List.length_cons] at hlen
    omega

/-- Every word `strings.Fields` returns is non-empty and holds no newline. -/
theorem fieldsLoop_words (fuel : Nat) :
    ∀ (bs cur : List Nat), 0x0A ∉ cur →
      ∀ w ∈ fieldsLoop fuel bs cur, w ≠ [] ∧ 0x0A ∉ w := by
  induction fuel with
  | zero =>
    intro bs cur hcur w hw
    simp only [fieldsLoop] at hw
    split_ifs at hw with hc
    · simp at hw
    · simp only [List.mem_singleton] at hw
      subst hw
      exact ⟨by simpa using hc, by simpa using hcur⟩
  | succ fuel ih =>
    intro bs cur hcur w hw
    cases bs with
    | nil =>
      simp only [fieldsLoop] at hw
      split_ifs at hw with hc
      · simp at hw
      · simp only [List.mem_singleton] at hw
        subst hw
        exact ⟨by simpa using hc, by simpa using hcur⟩
    | cons b bs =>
      simp only [fieldsLoop] at hw
      split_ifs at hw with hsp hc
      · simp only [List.nil_append] at hw
        exact ih _ [] (by simp) w hw
      · simp only [List.singleton_append, List.mem_cons] at hw
        rcases hw with rfl | hw
        · exact ⟨by simpa using hc, by simpa using hcur⟩
        · exact ih _ [] (by simp) w hw
      · refine ih _ _ ?_ w hw
        have hnl := newline_not_mem_rune b bs (by simpa using hsp)
        simp only [List.mem_append, List.mem_reverse, not_or]
        exact ⟨hnl, hcur⟩

theorem Fields_words (s : List Nat) : ∀ w ∈ Fields s, w ≠ [] ∧ 0x0A ∉ w :=
  fieldsLoop_words s.length s [] (by simp)

/-- The inner loop only appends to the line. -/
theorem greedyLine_prefix (pr : Nat → Bool) (width indent : Int) :
    ∀ (ws : List (List Nat)) (count : Int) (line : List Nat),
      line <+: (greedyLine pr width indent ws count line).1 := by
  intro ws
  induction ws with
  | nil => intro count line; simp [greedyLine]
  | cons w ws ih =>
    intro count line
    simp only [greedyLine]
    split_ifs <;>
      first
        | exact List.prefix_refl _
        | exact (List.prefix_append line _).trans (ih _ _)

/-- The inner loop writes no newline into the line. -/
theorem greedyLine_no_newline (pr : Nat → Bool) (width indent : Int) :
    ∀ (ws : List (List Nat)) (count : Int) (line : List Nat),
      (∀ w ∈ ws, 0x0A ∉ w) → 0x0A ∉ line →
      0x0A ∉ (greedyLine pr width indent ws count line).1 := by
  intro ws
  induction ws with
  | nil => intro count line _ hl; simpa [greedyLine] using hl
  | cons w ws ih =>
    intro count line hws hl
    have hw := hws w (List.mem_cons_self _ _)
    have hws1 : ∀ x ∈ ws, 0x0A ∉ x := fun x hx => hws x (List.mem_cons_of_mem _ hx)
    simp only [greedyLine]
    split_ifs
    all_goals first
      | exact hl
      | (apply ih _ _ hws1
         simp only [List.mem_append, List.mem_cons, not_or]
         first
           | exact ⟨hl, by decide, hw⟩
           | exact ⟨hl, hw⟩)

/-- Every line the outer loop emits is non-empty and holds no newline. -/
theorem greedyLoop_lines (pr : Nat → Bool) (width firstIndent restIndent : Int) :
    ∀ (fuel : Nat) (ws : List (List Nat)) (lines out : List (List Nat)),
      (∀ w ∈ ws, w ≠ [] ∧ 0x0A ∉ w) → (∀ l ∈ lines, l ≠ [] ∧ 0x0A ∉ l) →
      greedyLoop pr width firstIndent restIndent fuel ws lines = some out →
      ∀ l ∈ out, l ≠ [] ∧ 0x0A ∉ l := by
  intro fuel
  induction fuel with
  | zero =>
    intro ws lines out _ hlines h
    cases ws with
    | nil =>
      simp only [greedyLoop, Option.some.injEq] at h
      subst h
      exact hlines
    | cons w ws => simp [greedyLoop] at h
  | succ fuel ih =>
    intro ws lines out hws hlines h
    cases ws with
    | nil =>
      simp only [greedyLoop, Option.some.injEq] at h
      subst h
      exact hlines
    | cons w ws =>
      simp only [greedyLoop] at h
      generalize (if lines.length = 0 then firstIndent else restIndent) = indent at h
      unfold RepeatSpace at h
      by_cases hneg : indent < 0
      · rw [if_pos hneg] at h
        simp at h
      rw [if_neg hneg] at h
      simp only at h
      generalize hline : List.replicate indent.toNat 32 = line at h
      have hnl0 : 0x0A ∉ line := by
        rw [← hline]
        intro hm
        have := List.eq_of_mem_replicate hm
        omega
      refine ih _ _ out ?_ ?_ h
      · intro x hx
        exact hws x ((greedyLine_suffix pr width indent (w :: ws) 0 line).subset hx)
      · intro l hl
        rcases List.mem_append.mp hl with hl | hl
        · exact hlines l hl
        · simp only [List.mem_singleton] at hl
          subst hl
          constructor
          · have hw := (hws w (List.mem_cons_self _ _)).1
            have hp : line ++ w <+: (greedyLine pr width indent (w :: ws) 0 line).1 := by
              simp only [greedyLine, ne_eq, not_true_eq_false, and_false, if_false, zero_add]
              exact greedyLine_prefix pr width indent _ _ _
            intro hnil
            rw [hnil] at hp
            have := List.prefix_nil.mp hp
            simp only [List.append_eq_nil] at this
            exact hw this.2
          · exact greedyLine_no_newline pr width indent (w :: ws) 0 line
              (fun x hx => (hws x hx).2) hnl0

/-- Lines that are non-empty and hold no newline are counted by `lineCount`
after `strings.Join(lines, "\n")`. -/
theorem lineCount_Join :
    ∀ (lines : List (List Nat)), (∀ l ∈ lines, l ≠ [] ∧ 0x0A ∉ l) →
      lineCount (Join lines [0x0A]) = lines.length := by
  intro lines
  induction lines with
  | nil => intro _; simp [Join, lineCount]
  | cons e es ih =>
    intro h
    obtain ⟨hne, hnl⟩ := h e (List.mem_cons_self _ _)
    cases es with
    | nil =>
      simp only [Join, lineCount, if_neg hne, List.length_singleton]
      rw [List.count_eq_zero_of_not_mem hnl]
    | cons e2 es2 =>
      have ih2 := ih (fun l hl => h l (List.mem_cons_of_mem _ hl))
      have hne2 : Join (e2 :: es2) [0x0A] ≠ [] := by
        intro hnil
        rw [hnil] at ih2
        simp [lineCount] at ih2
      simp only [lineCount, if_neg hne2, List.length_cons] at ih2
      have hne3 : e ++ [0x0A] ++ Join (e2 :: es2) [0x0A] ≠ [] := by simp
      simp only [Join, lineCount, if_neg hne3, List.length_cons, List.count_append,
        List.count_eq_zero_of_not_mem hnl]
      simp only [List.count_singleton_self]
      omega

/-- The number of lines of the text `GreedyIndent` returns is the number of
lines it emitted. -/
theorem lineCount_greedy (pr : Nat → Bool) (str : List Nat)
    (width firstIndent restIndent : Int) (lines : List (List Nat))
    (h : greedyLines pr (Fields str) width firstIndent restIndent = some lines) :
    lineCount (Join lines [0x0A]) = lines.length :=
  lineCount_Join lines (greedyLoop_lines pr width firstIndent restIndent _ _ [] lines
    (Fields_words str) (by simp) h)

/-! ## `GreedyIndent` is monotone in the width: claim C15 -/

/-- From the same words, the inner loop leaves no more words over at a larger
width and a smaller count. -/
theorem greedyLine_mono (pr : Nat → Bool) (w1 w2 indent : Int) (hw : w1 ≤ w2) :
    ∀ (ws : List (List Nat)) (count1 count2 : Int) (line1 line2 : List Nat),
      0 ≤ count2 → count2 ≤ count1 →
      (greedyLine pr w2 indent ws count2 line2).2
        <:+ (greedyLine pr w1 indent ws count1 line1).2 := by
  intro ws
  induction ws with
  | nil => intro count1 count2 line1 line2 _ _; simp [greedyLine]
  | cons w ws ih =>
    intro count1 count2 line1 line2 h0 h12
    have hrc := RuneCount_nonneg pr w
    by_cases hbrk : indent + count1
        + (if count1 ≠ 0 then RuneCount pr w + 1 else RuneCount pr w) > w1 ∧ count1 ≠ 0
    · have e1 : (greedyLine pr w1 indent (w :: ws) count1 line1).2 = w :: ws := by
        simp only [greedyLine, if_pos hbrk]
      rw [e1]
      exact greedyLine_suffix pr w2 indent (w :: ws) count2 line2
    · have hbrk2 : ¬ (indent + count2
          + (if count2 ≠ 0 then RuneCount pr w + 1 else RuneCount pr w) > w2 ∧ count2 ≠ 0) := by
        rintro ⟨hgt, hne⟩
        rw [if_pos hne] at hgt
        have hc1 : count1 ≠ 0 := by omega
        apply hbrk
        rw [if_pos hc1]
        exact ⟨by omega, hc1⟩
      simp only [greedyLine, if_neg hbrk, if_neg hbrk2]
      apply ih
      · split_ifs <;> omega
      · split_ifs <;> omega

/-- Started at the head of a line from a suffix of the words, the inner loop at
the larger width leaves a suffix of what the loop at the smaller width
leaves. -/
theorem greedyLine_mono_suffix (pr : Nat → Bool) (w1 w2 indent : Int) (hw : w1 ≤ w2)
    (ws2 : List (List Nat)) (line2 : List Nat) :
    ∀ (t : List (List Nat)) (count1 : Int) (line1 : List Nat), 0 ≤ count1 →
      (greedyLine pr w2 indent ws2 0 line2).2
        <:+ (greedyLine pr w1 indent (t ++ ws2) count1 line1).2 := by
  intro t
  induction t with
  | nil =>
    intro count1 line1 h0
    exact greedyLine_mono pr w1 w2 indent hw ws2 count1 0 line1 line2 (le_refl _) h0
  | cons x t ih =>
    intro count1 line1 h0
    have hrc := RuneCount_nonneg pr x
    simp only [List.cons_append, greedyLine]
    split_ifs
    all_goals first
      | exact (greedyLine_suffix pr w2 indent ws2 0 line2).trans
          ((List.suffix_append t ws2).trans (List.suffix_cons x _))
      | exact ih _ _ (by omega)

/-- The outer loop of `GreedyIndent` returns: every round places a word. -/
theorem greedyLoop_total (pr : Nat → Bool) (width firstIndent restIndent : Int)
    (hf : 0 ≤ firstIndent) (hr : 0 ≤ restIndent) :
    ∀ (fuel : Nat) (ws : List (List Nat)) (lines : List (List Nat)), ws.length ≤ fuel →
      ∃ new, greedyLoop pr width firstIndent restIndent fuel ws lines = some (lines ++ new) := by
  intro fuel
  induction fuel with
  | zero =>
    intro ws lines h
    have : ws = [] := List.length_eq_zero.mp (by omega)
    subst this
    exact ⟨[], by simp [greedyLoop]⟩
  | succ fuel ih =>
    intro ws lines h
    cases ws with
    | nil => exact ⟨[], by simp [greedyLoop]⟩
    | cons w ws =>
      have hind : (0 : Int) ≤ (if lines.length = 0 then firstIndent else restIndent) := by
        split_ifs <;> assumption
      simp only [greedyLoop, RepeatSpace, if_neg (not_lt.mpr hind)]
      have h1 : (greedyLine pr width (if lines.length = 0 then firstIndent else restIndent)
          (w :: ws) 0 (List.replicate
            (if lines.length = 0 then firstIndent else restIndent).toNat 32)).2 <:+ ws := by
        simp only [greedyLine, ne_eq, not_true_eq_false, and_false, if_false, zero_add]
        exact greedyLine_suffix pr width _ _ _ _
      have h2 := h1.length_le
      simp only [List.length_cons] at h
      obtain ⟨new, hnew⟩ := ih (greedyLine pr width
        (if lines.length = 0 then firstIndent else restIndent) (w :: ws) 0 (List.replicate
          (if lines.length = 0 then firstIndent else restIndent).toNat 32)).2
        (lines ++ [(greedyLine pr width
        (if lines.length = 0 then firstIndent else restIndent) (w :: ws) 0 (List.replicate
          (if lines.length = 0 then firstIndent else restIndent).toNat 32)).1]) (by omega)
      exact ⟨(greedyLine pr width
        (if lines.length = 0 then firstIndent else restIndent) (w :: ws) 0 (List.replicate
          (if lines.length = 0 then firstIndent else restIndent).toNat 32)).1 :: new,
        by rw [hnew]; simp⟩

/-- From a suffix of the words, the outer loop at the larger width emits at most
as many lines as the loop at the smaller width. -/
theorem greedyLoop_mono (pr : Nat → Bool) (w1 w2 firstIndent restIndent : Int)
    (hf : 0 ≤ firstIndent) (hr : 0 ≤ restIndent) (hw : w1 ≤ w2) :
    ∀ (n fuel1 fuel2 : Nat) (ws1 ws2 : List (List Nat)) (lines1 lines2 : List (List Nat)),
      ws1.length ≤ n → ws1.length ≤ fuel1 → ws2.length ≤ fuel2 → ws2 <:+ ws1 →
      (lines1.length = 0 ↔ lines2.length = 0) →
      ∃ new1 new2,
        greedyLoop pr w1 firstIndent restIndent fuel1 ws1 lines1 = some (lines1 ++ new1)
        ∧ greedyLoop pr w2 firstIndent restIndent fuel2 ws2 lines2 = some (lines2 ++ new2)
        ∧ new2.length ≤ new1.length := by
  intro n
  induction n with
  | zero =>
    intro fuel1 fuel2 ws1 ws2 lines1 lines2 hn _ _ hsuf _
    have e1 : ws1 = [] := List.length_eq_zero.mp (by omega)
    subst e1
    have e2 : ws2 = [] := by simpa using hsuf
    subst e2
    exact ⟨[], [], by cases fuel1 <;> simp [greedyLoop], by cases fuel2 <;> simp [greedyLoop],
      le_refl _⟩
  | succ n ih =>
    intro fuel1 fuel2 ws1 ws2 lines1 lines2 hn hf1 hf2 hsuf hlines
    cases ws2 with
    | nil =>
      obtain ⟨new1, h1⟩ := greedyLoop_total pr w1 firstIndent restIndent hf hr fuel1 ws1 lines1 hf1
      exact ⟨new1, [], h1, by cases fuel2 <;> simp [greedyLoop], by simp⟩
    | cons x2 ws2 =>
      cases ws1 with
      | nil => simp at hsuf
      | cons x1 ws1 =>
        obtain ⟨fuel1, rfl⟩ : ∃ k, fuel1 = k + 1 := ⟨fuel1 - 1, by simp at hf1; omega⟩
        obtain ⟨fuel2, rfl⟩ : ∃ k, fuel2 = k + 1 := ⟨fuel2 - 1, by simp at hf2; omega⟩
        have hind2 : (if lines2.length = 0 then firstIndent else restIndent)
            = (if lines1.length = 0 then firstIndent else restIndent) := by
          by_cases h : lines1.length = 0
          · rw [if_pos h, if_pos (hlines.mp h)]
          · rw [if_neg h, if_neg (fun h2 => h (hlines.mpr h2))]
        have hind : (0 : Int) ≤ (if lines1.length = 0 then firstIndent else restIndent) := by
          split_ifs <;> assumption
        simp only [greedyLoop, hind2, RepeatSpace, if_neg (not_lt.mpr hind)]
        generalize (if lines1.length = 0 then firstIndent else restIndent) = indent
        generalize List.replicate indent.toNat 32 = line
        have hs1 : (greedyLine pr w1 indent (x1 :: ws1) 0 line).2 <:+ ws1 := by
          simp only [greedyLine, ne_eq, not_true_eq_false, and_false, if_false, zero_add]
          exact greedyLine_suffix pr w1 _ _ _ _
        have hs2 : (greedyLine pr w2 indent (x2 :: ws2) 0 line).2 <:+ ws2 := by
          simp only [greedyLine, ne_eq, not_true_eq_false, and_false, if_false, zero_add]
          exact greedyLine_suffix pr w2 _ _ _ _
        have hs12 : (greedyLine pr w2 indent (x2 :: ws2) 0 line).2
            <:+ (greedyLine pr w1 indent (x1 :: ws1) 0 line).2 := by
          obtain ⟨t, ht⟩ := hsuf
          rw [← ht]
          exact greedyLine_mono_suffix pr w1 w2 indent hw (x2 :: ws2) line t 0 line (le_refl _)
        have hl1 := hs1.length_le
        have hl2 := hs2.length_le
        simp only [List.length_cons] at hn hf1 hf2
        obtain ⟨new1, new2, h1, h2, hle⟩ := ih fuel1 fuel2 _ _
          (lines1 ++ [(greedyLine pr w1 indent (x1 :: ws1) 0 line).1])
          (lines2 ++ [(greedyLine pr w2 indent (x2 :: ws2) 0 line).1])
          (by omega) (by omega) (by omega) hs12 (by simp)
        refine ⟨(greedyLine pr w1 indent (x1 :: ws1) 0 line).1 :: new1,
          (greedyLine pr w2 indent (x2 :: ws2) 0 line).1 :: new2, ?_, ?_, by simpa using hle⟩
        · rw [h1]; simp
        · rw [h2]; simp

/-- C15. `GreedyIndent` is monotone in the width: for `w1 <= w2` both calls
return, the call at `w1` emits at least as many lines as the call at `w2`, and
the text it returns has at least as many lines. -/
theorem GreedyIndent_monotone (pr : Nat → Bool) (str : List Nat)
    (w1 w2 firstIndent restIndent : Int) (hf : 0 ≤ firstIndent) (hr : 0 ≤ restIndent)
    (hw : w1 ≤ w2) :
    ∃ lines1 lines2,
      greedyLines pr (Fields str) w1 firstIndent restIndent = some lines1
      ∧ greedyLines pr (Fields str) w2 firstIndent restIndent = some lines2
      ∧ GreedyIndent pr str w1 firstIndent restIndent = some (Join lines1 [0x0A])
      ∧ GreedyIndent pr str w2 firstIndent restIndent = some (Join lines2 [0x0A])
      ∧ lines2.length ≤ lines1.length
      ∧ lineCount (Join lines2 [0x0A]) ≤ lineCount (Join lines1 [0x0A]) := by
  obtain ⟨new1, new2, h1, h2, hle⟩ := greedyLoop_mono pr w1 w2 firstIndent restIndent hf hr hw
    (Fields str).length (Fields str).length (Fields str).length (Fields str) (Fields str) [] []
    (le_refl _) (le_refl _) (le_refl _) (List.suffix_refl _) (by simp)
  simp only [List.nil_append] at h1 h2
  refine ⟨new1, new2, h1, h2, by simp [GreedyIndent, greedyLines, h1],
    by simp [GreedyIndent, greedyLines, h2], hle, ?_⟩
  rw [lineCount_greedy pr str w1 firstIndent restIndent new1 h1,
    lineCount_greedy pr str w2 firstIndent restIndent new2 h2]
  exact hle

set_option maxRecDepth 100000 in
theorem GreedyIndent_monotone_witness :
    ∃ lines1 lines2,
      greedyLines (fun _ => true) (Fields [83, 111, 109, 101, 32, 116, 101, 120, 116, 46]) 4 0 0
        = some lines1
      ∧ greedyLines (fun _ => true) (Fields [83, 111, 109, 101, 32, 116, 101, 120, 116, 46])
          20 0 0 = some lines2
      ∧ GreedyIndent (fun _ => true) [83, 111, 109, 101, 32, 116, 101, 120, 116, 46] 4 0 0
        = some (Join lines1 [0x0A])
      ∧ GreedyIndent (fun _ => true) [83, 111, 109, 101, 32, 116, 101, 120, 116, 46] 20 0 0
        = some (Join lines2 [0x0A])
      ∧ lines2.length ≤ lines1.length
      ∧ lineCount (Join lines2 [0x0A]) ≤ lineCount (Join lines1 [0x0A]) :=
  GreedyIndent_monotone (fun _ => true) [83, 111, 109, 101, 32, 116, 101, 120, 116, 46] 4 20 0 0
    (by decide) (by decide) (by decide)

/-! ## Monotonicity, totality and the full table: claims C16 to C20 -/

set_option maxRecDepth 100000 in
/-- C16, evaluation.  For the text `dddd a`, `WrapIndent` at width 2 takes
`BalancedIndent` (6 >= 4) and returns the single line `dddd a`; at width 4 it
takes `GreedyIndent` (6 < 8) and returns the two lines `dddd` and `a`: the
wider text has more lines. -/
theorem WrapIndent_not_monotone (pr : Nat → Bool) :
    WrapIndent pr [100, 100, 100, 100, 32, 97] 2 0 0 = some [100, 100, 100, 100, 32, 97]
    ∧ balancedLines pr (Fields [100, 100, 100, 100, 32, 97]) 2 0 0
        = some [[100, 100, 100, 100, 32, 97]]
    ∧ WrapIndent pr [100, 100, 100, 100, 32, 97] 4 0 0 = some [100, 100, 100, 100, 10, 97]
    ∧ greedyLines pr (Fields [100, 100, 100, 100, 32, 97]) 4 0 0
        = some [[100, 100, 100, 100], [97]]
    ∧ greedyLines pr (Fields [100, 100, 100, 100, 32, 97]) 2 0 0
        = some [[100, 100, 100, 100], [97]]
    ∧ lineCount [100, 100, 100, 100, 32, 97] = 1
    ∧ lineCount [100, 100, 100, 100, 10, 97] = 2 :=
  ⟨rfl, rfl, rfl, rfl, rfl, rfl, rfl⟩

/-- C17. `BalancedIndent` is total: `OuterLoop` with all its restarts and every
`search` return within their fuel and without a panic, so every index into
`offsets`, `minima`, `breaks` is in range; the tables keep their `count + 1`
entries and `breaks[j]` is a non-negative index below `j` for every `j` from 1
to the word count, so the reconstruction loop returns its lines and
`BalancedIndent` a string. -/
theorem BalancedIndent_total (pr : Nat → Bool) (str : List Nat)
    (width firstIndent restIndent : Int) (hf : 0 ≤ firstIndent) (hr : 0 ≤ restIndent) :
    (∃ t, balancedTables pr (Fields str) width firstIndent restIndent = some t
      ∧ t.minima.length = (Fields str).length + 1
      ∧ t.breaks.length = (Fields str).length + 1
      ∧ ∀ j : Int, 1 ≤ j → j ≤ (Fields str).length →
          ∃ y, getI t.breaks j = some y ∧ 0 ≤ y ∧ y < j)
    ∧ (∃ lines, balancedLines pr (Fields str) width firstIndent restIndent = some lines)
    ∧ ∃ out, BalancedIndent pr str width firstIndent restIndent = some out := by
  obtain ⟨t, E, ht, hok⟩ := balancedTables_ok pr (Fields str) width firstIndent restIndent
  obtain ⟨chunks, _, _, hl⟩ :=
    balancedLines_ok pr (Fields str) width firstIndent restIndent hf hr
  refine ⟨⟨t, ht, hok.lenM, hok.lenB, ?_⟩, ⟨_, hl⟩,
    ⟨Join (renderSplit firstIndent restIndent chunks) [0x0A], by simp [BalancedIndent, hl]⟩⟩
  intro j hj1 hj2
  obtain ⟨y, hy⟩ := getI_isSome t.breaks j (by omega) (by rw [hok.lenB]; push_cast; omega)
  obtain ⟨h1, _, h3⟩ := hok.brk j y hy
  exact ⟨y, hy, h1, h3 hj1⟩

set_option maxRecDepth 100000 in
theorem BalancedIndent_total_witness :
    (∃ t, balancedTables (fun _ => true) (Fields [77, 97, 121, 32, 97, 32, 98]) 2 1 3 = some t
      ∧ t.minima.length = (Fields [77, 97, 121, 32, 97, 32, 98]).length + 1
      ∧ t.breaks.length = (Fields [77, 97, 121, 32, 97, 32, 98]).length + 1
      ∧ ∀ j : Int, 1 ≤ j → j ≤ (Fields [77, 97, 121, 32, 97, 32, 98]).length →
          ∃ y, getI t.breaks j = some y ∧ 0 ≤ y ∧ y < j)
    ∧ (∃ lines, balancedLines (fun _ => true) (Fields [77, 97, 121, 32, 97, 32, 98]) 2 1 3
        = some lines)
    ∧ ∃ out, BalancedIndent (fun _ => true) [77, 97, 121, 32, 97, 32, 98] 2 1 3 = some out :=
  BalancedIndent_total (fun _ => true) [77, 97, 121, 32, 97, 32, 98] 2 1 3 (by decide)
    (by decide)

set_option maxRecDepth 100000 in
/-- C18, evaluation.  For the one-word text `a` at width 100000 the full table
has `minima'[1] = cost(0, 1) = 99999^2 = 9999800001`.  `BalancedIndent` stores a
cost only when it is at most the current `minima[1]`, which starts at
`math.MaxInt32`: it leaves `minima[1] = 2147483647`. -/
theorem minima_differs_from_full_table (pr : Nat → Bool) :
    Fields [97] = [[97]]
    ∧ balancedTables pr [[97]] 100000 0 0 = some ⟨[0, 2147483647], [0, 0]⟩
    ∧ dpTable ⟨100000, 0, 0, 0 :: initOffsets pr [[97]] 0⟩ 1 = some [0, 9999800001]
    ∧ cost ⟨100000, 0, 0, 0 :: initOffsets pr [[97]] 0⟩ [0] 0 1 = some 9999800001 :=
  ⟨rfl, rfl, rfl, rfl⟩

/-- Inside an escape sequence without a closing `m` nothing is counted. -/
theorem runeCountLoop_unterminated (pr : Nat → Bool) :
    ∀ (fuel : Nat) (t : List Nat) (l : Int), 0x6D ∉ t →
      runeCountLoop pr fuel t true l = (true, l) := by
  intro fuel
  induction fuel with
  | zero => intro t l _; rfl
  | succ fuel ih =>
    intro t l hm
    cases t with
    | nil => rfl
    | cons b0 bs =>
      have hb0 : b0 ≠ 0x6D := fun h => hm (h ▸ List.mem_cons_self _ _)
      have hrune := decodeRune_rune_ne_ascii 0x6D b0 bs (by omega) hb0
      rw [runeCountLoop_succ]
      have hst : scanRune pr (true, l) (DecodeRune (b0 :: bs)).1 = (true, l) := by
        rw [scanRune_fst_snd]
        split_ifs <;> simp_all
      rw [hst]
      exact ih _ l (fun hmem => hm (List.mem_of_mem_drop hmem))

/-- C19. An escape byte swallows everything up to the next `m`: for a string
`t` without the byte `m`, `RuneCount(ESC ++ t)` is 0, whatever `t` holds. -/
theorem RuneCount_unterminated_escape (pr : Nat → Bool) (t : List Nat) (h : 0x6D ∉ t) :
    RuneCount pr (0x1B :: t) = 0 := by
  unfold RuneCount
  simp only [List.length_cons]
  rw [runeCountLoop_succ, decodeRune_ascii _ (by omega)]
  simp only [scanRune_fst_snd, if_true, List.drop_succ_cons, List.drop_zero]
  rw [runeCountLoop_unterminated pr _ t 0 h]

set_option maxRecDepth 100000 in
theorem RuneCount_unterminated_escape_witness :
    RuneCount (fun _ => true) (0x1B :: [91, 75, 32, 104, 101, 108, 108, 111]) = 0 :=
  RuneCount_unterminated_escape (fun _ => true) [91, 75, 32, 104, 101, 108, 108, 111]
    (by decide)

set_option maxRecDepth 100000 in
/-- C20, evaluation.  The text `ESC[K a a` has three words, the first of
`RuneCount` 0.  At width 8 `GreedyIndent` returns `ESC[Ka a`, the second word
glued to the first.  Wrapped again, that text has the two words `ESC[Ka`, of
`RuneCount` 0, and `a`, and `GreedyIndent` returns `ESC[Kaa`.  `BalancedIndent`
returns `ESC[K a a` both times. -/
theorem GreedyIndent_not_idempotent (pr : Nat → Bool) :
    Fields [27, 91, 75, 32, 97, 32, 97] = [[27, 91, 75], [97], [97]]
    ∧ GreedyIndent pr [27, 91, 75, 32, 97, 32, 97] 8 0 0 = some [27, 91, 75, 97, 32, 97]
    ∧ Fields [27, 91, 75, 97, 32, 97] = [[27, 91, 75, 97], [97]]
    ∧ RuneCount pr [27, 91, 75, 97] = 0
    ∧ GreedyIndent pr [27, 91, 75, 97, 32, 97] 8 0 0 = some [27, 91, 75, 97, 97]
    ∧ BalancedIndent pr [27, 91, 75, 32, 97, 32, 97] 8 0 0
        = some [27, 91, 75, 32, 97, 32, 97] :=
  ⟨rfl, rfl, rfl, rfl, rfl, rfl⟩

end Ansiwrap
